import Mathlib

/-!
Shallow embedding of the day-18 "collect all keys" solver (src/src/day18.rs).

The grid input is modelled as a `List (List Char)` — the list of lines of the
input text, as produced by Rust's `str::lines` followed by `str::chars`.
Machine integers (`u32` bitmasks, `usize` step counters) are modelled as `Nat`;
no arithmetic in the program can overflow on the values it actually computes
(see the claim about `Key::bit_mask` call sites), so `Nat` is a faithful model.
Rust panics are modelled as `Except RunError` errors.  The two `HashMap`s whose
iteration order is observable only up to independent per-source work are
modelled as association lists in first-insertion order; every observable result
below is independent of that order, as argued in the accompanying lemmas.
-/

/-- Positions on the grid, `(x, y)` pairs of `i32` values. -/
abbrev Pos := Int × Int

/-- The four 4-connected neighbour offsets, in the order of the `DIRECTIONS`
constant of the source. -/
def DIRECTIONS : List Pos := [(0, 1), (0, -1), (-1, 0), (1, 0)]

/-- A key, identified by its character (`struct Key { value: char }`). -/
structure Key where
  value : Char
deriving DecidableEq, Repr

/-- The key bitmask: `1 << (value as usize - 'a' as usize)` on a `u32`.
For the lowercase keys this is actually invoked on, the shift amount is in
`0..=25`, so the `Nat` model agrees with the `u32` semantics. -/
def Key.bit_mask (k : Key) : Nat := 1 <<< (k.value.toNat - 'a'.toNat)

/-- A path between keys (`struct Edge`). -/
structure Edge where
  target_key : Key
  steps : Nat
  needed_keys : Nat
deriving DecidableEq, Repr

/-- The ways the Rust program can panic, plus fuel exhaustion of the loop
model (never reached with the fuel supplied below). -/
inductive RunError where
  /-- `panic!("Invalid map entry: {}", c)` in the reducer BFS. -/
  | invalidMapEntry : Char → RunError
  /-- `Option::unwrap` on `None` (the `adjacency_list.get(..).unwrap()` call,
  and the `lines().next().unwrap()` call of `part2`). -/
  | unwrapNone : RunError
  /-- `.expect("Not possible to gather all keys")`. -/
  | notPossible : RunError
  /-- Fuel ran out in the loop model. -/
  | outOfFuel : RunError
deriving DecidableEq, Repr

/-- The character stored in the `map` HashMap for a grid character: `'@'` is
stored as `'.'`, `'#'` is not stored at all, everything else is stored as-is. -/
def charForMap (c : Char) : Option Char :=
  if c = '@' then some '.'
  else if c = '#' then none
  else some c

/-- The raw grid character at a position, if the position is in range. -/
def cellAt (lines : List (List Char)) (p : Pos) : Option Char :=
  if 0 ≤ p.1 ∧ 0 ≤ p.2 then
    ((lines.get? p.2.toNat).bind fun row => row.get? p.1.toNat)
  else none

/-- The `map` HashMap of the parse loop, as a function: `map.get(&p)`. -/
def mapAt (lines : List (List Char)) (p : Pos) : Option Char :=
  (cellAt lines p).bind charForMap

/-- `HashMap::insert` on the `found_keys` map: overwrite the binding for `k`
if present, otherwise add it. -/
def insertKey (k : Key) (p : Pos) : List (Key × Pos) → List (Key × Pos)
  | [] => [(k, p)]
  | (k', p') :: rest => if k' = k then (k, p) :: rest else (k', p') :: insertKey k p rest

/-- One row of the `found_keys` scan: record `'@'` and every lowercase key. -/
def scanRowKeys (y : Nat) : Nat → List Char → List (Key × Pos) → List (Key × Pos)
  | _, [], acc => acc
  | x, c :: cs, acc =>
    scanRowKeys y (x + 1) cs
      (if c = '@' then insertKey ⟨'@'⟩ ((x : Int), (y : Int)) acc
       else if 'a' ≤ c ∧ c ≤ 'z' then insertKey ⟨c⟩ ((x : Int), (y : Int)) acc
       else acc)

/-- The scan over all rows building `found_keys`. -/
def scanKeys : Nat → List (List Char) → List (Key × Pos) → List (Key × Pos)
  | _, [], acc => acc
  | y, row :: rows, acc => scanKeys (y + 1) rows (scanRowKeys y 0 row acc)

/-- The `found_keys` map built by the parse loop, in first-insertion order. -/
def foundKeys (lines : List (List Char)) : List (Key × Pos) := scanKeys 0 lines []

/-- The contribution of one row to `all_keys_bitset`. -/
def rowKeysBitset : List Char → Nat
  | [] => 0
  | c :: cs => (if 'a' ≤ c ∧ c ≤ 'z' then Key.bit_mask ⟨c⟩ else 0) ||| rowKeysBitset cs

/-- The `all_keys_bitset` accumulated by the parse loop. -/
def allKeysBitset : List (List Char) → Nat
  | [] => 0
  | row :: rows => rowKeysBitset row ||| allKeysBitset rows

/-- `found_keys.contains_key(&k)`. -/
def containsKey (k : Key) : List (Key × Pos) → Bool
  | [] => false
  | (k', _) :: rest => if k' = k then true else containsKey k rest

/-- Membership in the BFS `visited_positions` set. -/
def posMem (p : Pos) : List Pos → Bool
  | [] => false
  | q :: rest => if q = p then true else posMem p rest

/-- State of one source's BFS: the `to_visit` queue of
`(position, bitset_of_needed_keys, steps)` triples, the `visited_positions`
set, and the edges pushed so far for this source. -/
structure BfsState where
  queue : List (Pos × Nat × Nat)
  visited : List Pos
  edges : List Edge
deriving DecidableEq, Repr

/-- One direction of the BFS inner loop (`'key_direction_loop`): classify the
neighbouring cell, accumulate the needed-keys mask for a door whose key exists,
record a key, skip a missing cell, or panic on an invalid one; then, if the
neighbour was not yet visited, mark it, enqueue it, and push an edge when the
neighbour is a key. -/
def stepDir (m : Pos → Option Char) (fk : List (Key × Pos)) (position : Pos)
    (needed_keys steps : Nat) (st : BfsState) (d : Pos) : Except RunError BfsState :=
  let new_position : Pos := (position.1 + d.1, position.2 + d.2)
  match m new_position with
  | none => .ok st
  | some c =>
    let classified : Except RunError (Nat × Option Key) :=
      if 'A' ≤ c ∧ c ≤ 'Z' then
        let needed_key : Key := ⟨Char.ofNat (c.toNat + 32)⟩
        .ok ((if containsKey needed_key fk then needed_keys ||| needed_key.bit_mask
              else needed_keys), none)
      else if 'a' ≤ c ∧ c ≤ 'z' then .ok (needed_keys, some ⟨c⟩)
      else if c = '.' then .ok (needed_keys, none)
      else .error (.invalidMapEntry c)
    match classified with
    | .error e => .error e
    | .ok (new_needed_keys, found_key) =>
      if posMem new_position st.visited then .ok st
      else
        .ok { queue := st.queue ++ [(new_position, new_needed_keys, steps + 1)]
              visited := new_position :: st.visited
              edges := st.edges ++ (match found_key with
                | some target_key =>
                  [{ target_key := target_key, steps := steps + 1,
                     needed_keys := new_needed_keys }]
                | none => []) }

/-- The BFS inner loop over a list of directions. -/
def stepDirList (m : Pos → Option Char) (fk : List (Key × Pos)) (position : Pos)
    (needed_keys steps : Nat) : List Pos → BfsState → Except RunError BfsState
  | [], st => .ok st
  | d :: ds, st =>
    match stepDir m fk position needed_keys steps st d with
    | .error e => .error e
    | .ok st' => stepDirList m fk position needed_keys steps ds st'

/-- The BFS outer loop (`while let Some(..) = to_visit.pop_front()`), with
explicit fuel.  The fuel supplied by `steps_to_gather_all_keys` always
suffices, since every dequeued element was enqueued, and elements are enqueued
only together with a fresh insertion into the visited set of a position of the
finite map domain. -/
def bfsLoop (m : Pos → Option Char) (fk : List (Key × Pos)) :
    Nat → BfsState → Except RunError (List Edge)
  | fuel, st =>
    match st.queue with
    | [] => .ok st.edges
    | (position, needed_keys, steps) :: rest =>
      match fuel with
      | 0 => .error .outOfFuel
      | fuel' + 1 =>
        match stepDirList m fk position needed_keys steps DIRECTIONS
            { st with queue := rest } with
        | .error e => .error e
        | .ok st' => bfsLoop m fk fuel' st'

/-- One source's BFS (`to_visit` seeded with the source position at zero
needed keys and zero steps, source pre-inserted into the visited set). -/
def findEdgesFrom (m : Pos → Option Char) (fk : List (Key × Pos)) (fuel : Nat)
    (src : Pos) : Except RunError (List Edge) :=
  bfsLoop m fk fuel { queue := [(src, 0, 0)], visited := [src], edges := [] }

/-- The adjacency map from source keys to edge lists.  An entry exists only if
at least one edge was pushed for that source (`entry(..).or_insert_with(..)`
is only reached when pushing an edge). -/
def buildAdjacencyAux (m : Pos → Option Char) (fk : List (Key × Pos)) (fuel : Nat) :
    List (Key × Pos) → Except RunError (List (Key × List Edge))
  | [] => .ok []
  | (k, p) :: rest =>
    match findEdgesFrom m fk fuel p with
    | .error e => .error e
    | .ok es =>
      match buildAdjacencyAux m fk fuel rest with
      | .error e => .error e
      | .ok adj => .ok (if es.isEmpty then adj else (k, es) :: adj)

/-- Fuel for one BFS: one more than the number of grid cells bounds the number
of dequeue operations. -/
def totalCellsFuel (lines : List (List Char)) : Nat :=
  (lines.foldr (fun r a => r.length + a) 0) + 2

/-- The complete graph reduction of a grid: parse, then one BFS per source. -/
def buildAdjacency (lines : List (List Char)) : Except RunError (List (Key × List Edge)) :=
  buildAdjacencyAux (mapAt lines) (foundKeys lines) (totalCellsFuel lines) (foundKeys lines)

/-- `adjacency_list.get(&k)`. -/
def adjGet (k : Key) : List (Key × List Edge) → Option (List Edge)
  | [] => none
  | (k', es) :: rest => if k' = k then some es else adjGet k rest

/-- A state of the key-space search (`struct Vertex`). -/
structure Vertex where
  at_key : Key
  steps : Nat
  gathered_keys : Nat
deriving DecidableEq, Repr

/-- The derived `Ord` of `Key`: code-point order of the character. -/
def cmpKey (a b : Key) : Ordering := compare a.value.toNat b.value.toNat

/-- The hand-written `Ord` of `Vertex`: reversed on steps (so that the max-heap
behaves as a min-heap on steps), then on gathered keys, then on the key. -/
def cmpVertex (a b : Vertex) : Ordering :=
  match compare b.steps a.steps with
  | .eq =>
    match compare a.gathered_keys b.gathered_keys with
    | .eq => cmpKey a.at_key b.at_key
    | o => o
  | o => o

/-- `BinaryHeap::pop`: remove a greatest element with respect to `cmpVertex`.
Two `Vertex` values compare `.eq` only when they are equal, so the heap's pop
is determined as a value by the multiset of entries; this picks the first
greatest element of the list model. -/
def popMax : List Vertex → Option (Vertex × List Vertex)
  | [] => none
  | v :: rest =>
    match popMax rest with
    | none => some (v, [])
    | some (m, rem) => if cmpVertex v m = .lt then some (m, v :: rem) else some (v, rest)

/-- `usize::max_value()`. -/
def USIZE_MAX : Nat := 2 ^ 64 - 1

/-- Lookup in the `cost_for_keys` table. -/
def costGet (p : Key × Nat) : List ((Key × Nat) × Nat) → Option Nat
  | [] => none
  | (q, v) :: rest => if q = p then some v else costGet p rest

/-- Write-through on the `cost_for_keys` table (overwrite or append). -/
def costSet (p : Key × Nat) (v : Nat) : List ((Key × Nat) × Nat) → List ((Key × Nat) × Nat)
  | [] => [(p, v)]
  | (q, w) :: rest => if q = p then (p, v) :: rest else (q, w) :: costSet p v rest

/-- The edge-relaxation loop of `shortest_path`: for each edge whose needed
keys are all gathered, build the successor vertex; `entry(..).or_insert(MAX)`
then compare-and-update, pushing the successor exactly when its steps strictly
beat the recorded cost. -/
def relaxEdges (gathered steps0 : Nat) :
    List Edge → List Vertex → List ((Key × Nat) × Nat) → List Vertex × List ((Key × Nat) × Nat)
  | [], heap, tbl => (heap, tbl)
  | e :: es, heap, tbl =>
    if e.needed_keys &&& gathered = e.needed_keys then
      let next : Vertex :=
        { at_key := e.target_key, steps := steps0 + e.steps,
          gathered_keys := gathered ||| e.target_key.bit_mask }
      let pr : Key × Nat := (e.target_key, next.gathered_keys)
      let current_cost := (costGet pr tbl).getD USIZE_MAX
      if next.steps < current_cost then
        relaxEdges gathered steps0 es (heap ++ [next]) (costSet pr next.steps tbl)
      else relaxEdges gathered steps0 es heap (costSet pr current_cost tbl)
    else relaxEdges gathered steps0 es heap tbl

/-- The main Dijkstra loop of `shortest_path`, with explicit fuel (the fuel
supplied below is never exhausted: each iteration either pops the final vertex
or strictly shrinks a well-founded measure on the cost table and heap). -/
def dijkstraLoop (adj : List (Key × List Edge)) (all_keys : Nat) :
    Nat → List Vertex → List ((Key × Nat) × Nat) → Except RunError (Option Nat)
  | fuel, heap, tbl =>
    match popMax heap with
    | none => .ok none
    | some (current, heap') =>
      if current.gathered_keys = all_keys then .ok (some current.steps)
      else
        match adjGet current.at_key adj with
        | none => .error .unwrapNone
        | some edges =>
          match fuel with
          | 0 => .error .outOfFuel
          | fuel' + 1 =>
            match relaxEdges current.gathered_keys current.steps edges heap' tbl with
            | (heap'', tbl') => dijkstraLoop adj all_keys fuel' heap'' tbl'

/-- Fuel for the Dijkstra loop; far larger than the bound
`(number of pairs) * usize::MAX + 2` on its iteration count. -/
def dijkstraFuel : Nat := 2 ^ 100

/-- `fn shortest_path`: seed the heap with the synthetic start vertex. -/
def shortest_path (adj : List (Key × List Edge)) (all_keys : Nat) :
    Except RunError (Option Nat) :=
  dijkstraLoop adj all_keys dijkstraFuel [⟨⟨'@'⟩, 0, 0⟩] []

/-- `fn steps_to_gather_all_keys`: parse, reduce, solve, and unwrap the
optional answer (`expect` panics when the answer is `None`). -/
def steps_to_gather_all_keys (lines : List (List Char)) : Except RunError Nat :=
  match buildAdjacency lines with
  | .error e => .error e
  | .ok adj =>
    match shortest_path adj (allKeysBitset lines) with
    | .error e => .error e
    | .ok (some n) => .ok n
    | .ok none => .error .notPossible

/-- `fn part1` (dropping only the final rendering of the number as text). -/
def part1 (lines : List (List Char)) : Except RunError Nat :=
  steps_to_gather_all_keys lines

/-- The character rewriting of `part2`: the centre and the four edge midpoints
of the 3×3 region around `(center_x, center_y)` become walls, its four corners
become start markers, and every other character is kept. -/
def replacedChar (center_x center_y x y : Nat) (c : Char) : Char :=
  match ((center_x : Int) - (x : Int), (center_y : Int) - (y : Int)) with
  | (0, 0) | (1, 0) | (-1, 0) | (0, 1) | (0, -1) => '#'
  | (1, 1) | (1, -1) | (-1, 1) | (-1, -1) => '@'
  | _ => c

/-- The inner loop of `part2` on one row: push each replaced character into
the left accumulator when `x <= center_x`, else into the right one. -/
def splitRow (center_x center_y y : Nat) : Nat → List Char → List Char × List Char
  | _, [] => ([], [])
  | x, c :: cs =>
    let rc := replacedChar center_x center_y x y c
    let (l, r) := splitRow center_x center_y y (x + 1) cs
    if x ≤ center_x then (rc :: l, r) else (l, rc :: r)

/-- The outer loop of `part2`: one row (terminated by the pushed newline) goes
to the two top quadrant grids when `y <= center_y`, else to the bottom two. -/
def buildQuads (center_x center_y : Nat) :
    Nat → List (List Char) →
      List (List Char) × List (List Char) × List (List Char) × List (List Char)
  | _, [] => ([], [], [], [])
  | y, row :: rows =>
    let (l, r) := splitRow center_x center_y y 0 row
    let (tl, tr, bl, br) := buildQuads center_x center_y (y + 1) rows
    if y ≤ center_y then (l :: tl, r :: tr, bl, br) else (tl, tr, l :: bl, r :: br)

/-- `fn part2`: rewrite and split the grid around its centre cell, solve the
four quadrant grids independently, and sum the four answers.  The
`lines().next().unwrap()` call panics on an empty input. -/
def part2 (lines : List (List Char)) : Except RunError Nat :=
  match lines with
  | [] => .error .unwrapNone
  | first :: _ =>
    let center_y := lines.length / 2
    let center_x := first.length / 2
    match buildQuads center_x center_y 0 lines with
    | (tl, tr, bl, br) =>
      match steps_to_gather_all_keys tl with
      | .error e => .error e
      | .ok a =>
        match steps_to_gather_all_keys tr with
        | .error e => .error e
        | .ok b =>
          match steps_to_gather_all_keys bl with
          | .error e => .error e
          | .ok c =>
            match steps_to_gather_all_keys br with
            | .error e => .error e
            | .ok d => .ok (a + b + c + d)


/-- Modelled from the spec: the first `'@'` of a row, scanning left to right. -/
def findStartRow : Nat → List Char → Option Nat
  | _, [] => none
  | x, c :: cs => if c = '@' then some x else findStartRow (x + 1) cs

/-- Modelled from the spec: the first `'@'` of the grid in scan order. -/
def findStart : Nat → List (List Char) → Option (Nat × Nat)
  | _, [] => none
  | y, row :: rows =>
    match findStartRow 0 row with
    | some x => some (x, y)
    | none => findStart (y + 1) rows

/-- Modelled from the spec: the four-agent transformation as the claim words
it — the 3×3 region rewritten and the quadrant split both centred on the
position of the original start marker `'@'` rather than on the grid's
geometric centre. -/
def part2_claimed (lines : List (List Char)) : Except RunError Nat :=
  match findStart 0 lines with
  | none => .error .unwrapNone
  | some (sx, sy) =>
    match buildQuads sx sy 0 lines with
    | (tl, tr, bl, br) =>
      match steps_to_gather_all_keys tl with
      | .error e => .error e
      | .ok a =>
        match steps_to_gather_all_keys tr with
        | .error e => .error e
        | .ok b =>
          match steps_to_gather_all_keys bl with
          | .error e => .error e
          | .ok c =>
            match steps_to_gather_all_keys br with
            | .error e => .error e
            | .ok d => .ok (a + b + c + d)

/-- The characters accepted by the grid grammar `#.@a-zA-Z`. -/
def validChar (c : Char) : Prop :=
  c = '#' ∨ c = '.' ∨ c = '@' ∨ ('a' ≤ c ∧ c ≤ 'z') ∨ ('A' ≤ c ∧ c ≤ 'Z')

instance (c : Char) : Decidable (validChar c) := by
  unfold validChar
  infer_instance

/-- The first concrete example grid of the spec. -/
def exampleGrid1 : List (List Char) :=
  [ "#########".toList, "#b.A.@.a#".toList, "#########".toList ]

/-- The second (four-row plus border) concrete example grid of the spec. -/
def exampleGrid2 : List (List Char) :=
  [ "########################".toList,
    "#f.D.E.e.C.b.A.@.a.B.c.#".toList,
    "######################.#".toList,
    "#d.....................#".toList,
    "########################".toList ]

/-- A grid whose key `'b'` is fully enclosed by a wall loop, with no door:
the spec's own `Unreachable` scenario. -/
def enclosedKeyGrid : List (List Char) :=
  [ "#######".toList, "#@.a#b#".toList, "#######".toList ]

/-- A grid consisting of the single invalid character `'?'`. -/
def invalidCharGrid : List (List Char) := [ "?".toList ]

/-- A corridor in which key `'b'` can only be reached by walking through the
cell of key `'a'`. -/
def beyondKeyGrid : List (List Char) := [ "@ab".toList ]

/-- A 7×7 grid whose start marker sits at `(1, 1)` — away from the geometric
centre `(3, 3)` — with a single key at `(5, 5)`. -/
def offCenterGrid : List (List Char) :=
  [ "#######".toList, "#@....#".toList, "#.....#".toList, "#.....#".toList,
    "#.....#".toList, "#....a#".toList, "#######".toList ]

/-- A needed-keys mask that is well-formed: bounded by bit 25 and a
sub-mask of the all-keys bitset. -/
def NeededOK (AK n : Nat) : Prop := n < 2 ^ 26 ∧ n &&& AK = n

/-- A well-formed edge: its target is a lowercase key and its needed-keys
mask is well-formed. -/
def EdgeOK (AK : Nat) (e : Edge) : Prop :=
  'a' ≤ e.target_key.value ∧ e.target_key.value ≤ 'z' ∧ NeededOK AK e.needed_keys

/-- The found-keys map is compatible with the all-keys bitset: every lowercase
key it contains has its bit set there. -/
def FkOK (fk : List (Key × Pos)) (AK : Nat) : Prop :=
  ∀ k : Key, containsKey k fk = true → 'a' ≤ k.value → k.value ≤ 'z' →
    Key.bit_mask k &&& AK = Key.bit_mask k

/-- The BFS invariant: all queued needed-keys masks and all recorded edges are
well-formed. -/
def StInv (AK : Nat) (st : BfsState) : Prop :=
  (∀ q ∈ st.queue, NeededOK AK q.2.1) ∧ (∀ e ∈ st.edges, EdgeOK AK e)

/-- Replace the character at index `x` of a row. -/
def setInRow (c : Char) : Nat → List Char → List Char
  | _, [] => []
  | 0, _ :: cs => c :: cs
  | x + 1, d :: cs => d :: setInRow c x cs

/-- Replace the character at column `x` of row `y` of a grid. -/
def setCell (c : Char) (x : Nat) : Nat → List (List Char) → List (List Char)
  | _, [] => []
  | 0, row :: rows => setInRow c x row :: rows
  | y + 1, row :: rows => row :: setCell c x y rows

/-- Two cell maps that agree everywhere except that the second may hold, in
place of a floor cell of the first, a door whose key is not in the found-keys
map (an inert door). -/
def CellEquiv (fk : List (Key × Pos)) (m1 m2 : Pos → Option Char) : Prop :=
  ∀ p : Pos, m1 p = m2 p ∨
    (m1 p = some '.' ∧ ∃ D : Char, m2 p = some D ∧ 'A' ≤ D ∧ D ≤ 'Z' ∧
      containsKey ⟨Char.ofNat (D.toNat + 32)⟩ fk = false)

/-- A grid with a door (`'Q'`) on the path to key `'a'`, where the matching
key `'q'` exists in the grid but sits sealed inside walls — outside any
traversable region. -/
def sealedKeyDoorGrid : List (List Char) :=
  [ "#######".toList, "#@Qa#q#".toList, "#######".toList ]

/-- The same grid with the door replaced by floor. -/
def sealedKeyNoDoorGrid : List (List Char) :=
  [ "#######".toList, "#@.a#q#".toList, "#######".toList ]

/-- The recorded best cost for a pair, with absence read as infinity
(`usize::max_value()`), exactly as `entry(..).or_insert(usize::max_value())`
reads it. -/
def tableVal (tbl : List ((Key × Nat) × Nat)) (p : Key × Nat) : Nat :=
  (costGet p tbl).getD USIZE_MAX

/-- The Dijkstra loop instrumented to also return the final best-cost table;
its first component is exactly `dijkstraLoop` (proved below). -/
def dijkstraLoopT (adj : List (Key × List Edge)) (all_keys : Nat) :
    Nat → List Vertex → List ((Key × Nat) × Nat) →
      Except RunError (Option Nat) × List ((Key × Nat) × Nat)
  | fuel, heap, tbl =>
    match popMax heap with
    | none => (.ok none, tbl)
    | some (current, heap') =>
      if current.gathered_keys = all_keys then (.ok (some current.steps), tbl)
      else
        match adjGet current.at_key adj with
        | none => (.error .unwrapNone, tbl)
        | some edges =>
          match fuel with
          | 0 => (.error .outOfFuel, tbl)
          | fuel' + 1 =>
            match relaxEdges current.gathered_keys current.steps edges heap' tbl with
            | (heap'', tbl') => dijkstraLoopT adj all_keys fuel' heap'' tbl'

/-- An `InvalidMapEntry` error is always caused by a stored cell character
outside the recognized grammar. -/
def InvalidCellWitness (m : Pos → Option Char) (e : RunError) : Prop :=
  ∃ p c, e = .invalidMapEntry c ∧ m p = some c ∧
    ¬('A' ≤ c ∧ c ≤ 'Z') ∧ ¬('a' ≤ c ∧ c ≤ 'z') ∧ ¬c = '.'

/-- The rewritten form of one row: `replacedChar` applied at each column. -/
def rewriteRow (cx cy y : Nat) : Nat → List Char → List Char
  | _, [] => []
  | x, c :: cs => replacedChar cx cy x y c :: rewriteRow cx cy y (x + 1) cs

/-- The rewritten grid: `replacedChar` applied at each cell. -/
def rewriteGrid (cx cy : Nat) : Nat → List (List Char) → List (List Char)
  | _, [] => []
  | y, row :: rows => rewriteRow cx cy y 0 row :: rewriteGrid cx cy (y + 1) rows

/-- The sum of the four independent quadrant answers, with panics propagated
in quadrant order exactly as in `part2`. -/
def quadSum (tl tr bl br : List (List Char)) : Except RunError Nat :=
  match steps_to_gather_all_keys tl with
  | .error e => .error e
  | .ok a =>
    match steps_to_gather_all_keys tr with
    | .error e => .error e
    | .ok b =>
      match steps_to_gather_all_keys bl with
      | .error e => .error e
      | .ok c =>
        match steps_to_gather_all_keys br with
        | .error e => .error e
        | .ok d => .ok (a + b + c + d)

/-- One 4-connected step on the grid, in one of the `DIRECTIONS`. -/
def Adjacent (q r : Pos) : Prop := ∃ d ∈ DIRECTIONS, r = (q.1 + d.1, q.2 + d.2)

/-- The needed-keys contribution of entering a cell: a door whose key is in
the found-keys map contributes that key's bit; anything else contributes
nothing. -/
def doorBit (fk : List (Key × Pos)) (c : Char) : Nat :=
  if 'A' ≤ c ∧ c ≤ 'Z' then
    if containsKey ⟨Char.ofNat (c.toNat + 32)⟩ fk then
      Key.bit_mask ⟨Char.ofNat (c.toNat + 32)⟩
    else 0
  else 0

/-- A walkable path from `src`: each step moves to a 4-adjacent stored cell,
accumulating the door bits of the cells entered.  `Walk m fk src q n mask`
says there is a walk of `n` steps from `src` to `q` whose doors (with keys
present in `fk`) are exactly `mask`. -/
inductive Walk (m : Pos → Option Char) (fk : List (Key × Pos)) (src : Pos) :
    Pos → Nat → Nat → Prop
  | nil : Walk m fk src src 0 0
  | cons {q r : Pos} {n mask : Nat} {c : Char} :
      Walk m fk src q n mask → Adjacent q r → m r = some c →
      Walk m fk src r (n + 1) (mask ||| doorBit fk c)

/-- What the reducer records for an edge is faithful: the target is a key
character stored at some cell `q`, the edge's steps and needed keys are the
length and door mask of an actual walk from the source to `q`, and no walk
from the source to `q` is shorter. -/
def EdgeSpec (m : Pos → Option Char) (fk : List (Key × Pos)) (src : Pos) (e : Edge) : Prop :=
  ∃ q c, m q = some c ∧ 'a' ≤ c ∧ c ≤ 'z' ∧ e.target_key = ⟨c⟩ ∧
    Walk m fk src q e.steps e.needed_keys ∧
    ∀ ℓ mk, Walk m fk src q ℓ mk → e.steps ≤ ℓ

/-- The BFS outer loop instrumented with the list of dequeued positions; its
first component is exactly `bfsLoop` (proved below). -/
def bfsLoopTrace (m : Pos → Option Char) (fk : List (Key × Pos)) :
    Nat → BfsState → List Pos → Except RunError (List Edge) × List Pos
  | fuel, st, trace =>
    match st.queue with
    | [] => (.ok st.edges, trace)
    | (position, needed_keys, steps) :: rest =>
      match fuel with
      | 0 => (.error .outOfFuel, trace)
      | fuel' + 1 =>
        match stepDirList m fk position needed_keys steps DIRECTIONS
            { st with queue := rest } with
        | .error e => (.error e, trace)
        | .ok st' => bfsLoopTrace m fk fuel' st' (trace ++ [position])

/-- A cell character the BFS can process without panicking. -/
def okCell (c : Char) : Prop := ('A' ≤ c ∧ c ≤ 'Z') ∨ ('a' ≤ c ∧ c ≤ 'z') ∨ c = '.'

/-- A map all of whose stored cells are processable. -/
def okMap (m : Pos → Option Char) : Prop := ∀ p c, m p = some c → okCell c

/-- The positions of one row of the grid. -/
def rowCells (y : Nat) : Nat → List Char → List Pos
  | _, [] => []
  | x, _ :: cs => ((x : Int), (y : Int)) :: rowCells y (x + 1) cs

/-- All in-range positions of the grid. -/
def gridCells : Nat → List (List Char) → List Pos
  | _, [] => []
  | y, row :: rows => rowCells y 0 row ++ gridCells (y + 1) rows

/-- A grid every character of which is in the recognized grammar. -/
def ValidGrid (lines : List (List Char)) : Prop :=
  ∀ row ∈ lines, ∀ c ∈ row, validChar c

instance (lines : List (List Char)) : Decidable (ValidGrid lines) := by
  unfold ValidGrid
  infer_instance

/-- The main BFS loop invariant, holding at the top of every iteration of
`bfsLoopTrace`: the visited set is exactly the dequeued (trace) positions
plus the queued ones, with no duplicates; the queue is sorted by steps and
spans at most two consecutive levels; every queue entry carries the length
and door mask of an actual walk from the source, and no walk to its position
is shorter; every dequeued position has all its stored neighbours visited;
every recorded edge is faithful (`EdgeSpec`); and every visited key cell
other than the source already has a faithful edge recorded. -/
structure BfsInvariant (m : Pos → Option Char) (fk : List (Key × Pos)) (src : Pos)
    (st : BfsState) (trace : List Pos) : Prop where
  vis_eq : ∀ r : Pos, posMem r st.visited = true ↔ r ∈ trace ∨ r ∈ st.queue.map (·.1)
  nodup : (trace ++ st.queue.map (·.1)).Nodup
  vis_dom : ∀ r : Pos, posMem r st.visited = true → r = src ∨ m r ≠ none
  src_vis : posMem src st.visited = true
  sorted : List.Pairwise (· ≤ ·) (st.queue.map (·.2.2))
  band : ∃ F, ∀ a ∈ st.queue.map (·.2.2), F ≤ a ∧ a ≤ F + 1
  qwalk : ∀ q ∈ st.queue, Walk m fk src q.1 q.2.2 q.2.1 ∧
    ∀ ℓ mk, Walk m fk src q.1 ℓ mk → q.2.2 ≤ ℓ
  closure : ∀ r ∈ trace, ∀ q c, Adjacent r q → m q = some c → posMem q st.visited = true
  edges_ok : ∀ e ∈ st.edges, EdgeSpec m fk src e
  keys_ok : ∀ q : Pos, posMem q st.visited = true → q ≠ src → ∀ c, m q = some c →
    'a' ≤ c → c ≤ 'z' →
    ∃ e ∈ st.edges, e.target_key = ⟨c⟩ ∧ Walk m fk src q e.steps e.needed_keys ∧
      ∀ ℓ mk, Walk m fk src q ℓ mk → e.steps ≤ ℓ

/-- The invariant holding while the four directions of one dequeued entry
`(p, mask, n)` are being processed. -/
structure BfsMidInv (m : Pos → Option Char) (fk : List (Key × Pos)) (src : Pos)
    (trace : List Pos) (p : Pos) (n : Nat) (preVisited : List Pos)
    (st : BfsState) : Prop where
  vis_eq : ∀ r : Pos, posMem r st.visited = true ↔
    r ∈ trace ++ [p] ∨ r ∈ st.queue.map (·.1)
  nodup : ((trace ++ [p]) ++ st.queue.map (·.1)).Nodup
  vis_dom : ∀ r : Pos, posMem r st.visited = true → r = src ∨ m r ≠ none
  src_vis : posMem src st.visited = true
  sorted : List.Pairwise (· ≤ ·) (st.queue.map (·.2.2))
  lo : ∀ a ∈ st.queue.map (·.2.2), n ≤ a
  hi : ∀ a ∈ st.queue.map (·.2.2), a ≤ n + 1
  qwalk : ∀ q ∈ st.queue, Walk m fk src q.1 q.2.2 q.2.1 ∧
    ∀ ℓ mk, Walk m fk src q.1 ℓ mk → q.2.2 ≤ ℓ
  mono : ∀ r : Pos, posMem r preVisited = true → posMem r st.visited = true
  closure_old : ∀ r ∈ trace, ∀ q c, Adjacent r q → m q = some c →
    posMem q st.visited = true
  edges_ok : ∀ e ∈ st.edges, EdgeSpec m fk src e
  keys_ok : ∀ q : Pos, posMem q st.visited = true → q ≠ src → ∀ c, m q = some c →
    'a' ≤ c → c ≤ 'z' →
    ∃ e ∈ st.edges, e.target_key = ⟨c⟩ ∧ Walk m fk src q e.steps e.needed_keys ∧
      ∀ ℓ mk, Walk m fk src q ℓ mk → e.steps ≤ ℓ

/-- What claim C5 asserts of one source's BFS, in terms of the instrumented
dequeue trace `T` and the recorded edge list `es`: the trace visits each
position at most once; every recorded edge is faithful (`EdgeSpec`: exact
shortest steps to a key cell, with that shortest route's door mask); every
position reachable by a walk from the source is dequeued; and every dequeued
key cell other than the source receives an edge with exact shortest steps
and that route's doors. -/
def ReducerSpec (lines : List (List Char)) (src : Pos) (es : List Edge)
    (T : List Pos) : Prop :=
  T.Nodup ∧
  (∀ e ∈ es, EdgeSpec (mapAt lines) (foundKeys lines) src e) ∧
  (∀ q ℓ mk, Walk (mapAt lines) (foundKeys lines) src q ℓ mk → q ∈ T) ∧
  (∀ q, q ∈ T → q ≠ src → ∀ c, mapAt lines q = some c → 'a' ≤ c → c ≤ 'z' →
    ∃ e ∈ es, e.target_key = ⟨c⟩ ∧
      Walk (mapAt lines) (foundKeys lines) src q e.steps e.needed_keys ∧
      ∀ ℓ mk, Walk (mapAt lines) (foundKeys lines) src q ℓ mk → e.steps ≤ ℓ)

/-- Reachability in the reduced key graph: `Reach adj k g s` holds when some
sequence of relax-eligible edge traversals (each requiring its needed keys to
be a submask of the keys gathered so far, gathering the target key and adding
the edge's steps) starting from the synthetic start key `'@'` with an empty
collected set and zero steps ends at key `k` with collected-keys bitset `g`
after `s` total steps.  This mirrors exactly the successor construction of
`shortest_path`. -/
inductive Reach (adj : List (Key × List Edge)) : Key → Nat → Nat → Prop
  | start : Reach adj ⟨'@'⟩ 0 0
  | step {k : Key} {g s : Nat} {es : List Edge} {e : Edge} :
      Reach adj k g s → adjGet k adj = some es → e ∈ es →
      e.needed_keys &&& g = e.needed_keys →
      Reach adj e.target_key (g ||| e.target_key.bit_mask) (s + e.steps)

/-- The lazy-Dijkstra loop invariant of `shortest_path`, with the already
popped-and-relaxed vertices `pops` carried as ghost state: every heap vertex
denotes a reachable state; no relaxed pop had the goal mask; the start state
is still in the heap or among the pops; each pop's eligible successors have a
recorded best cost no worse than relaxing through that pop; and every
finite recorded best cost is witnessed by a heap vertex or a pop at that pair
with no more steps. -/
structure DijInv (adj : List (Key × List Edge)) (ak : Nat) (heap : List Vertex)
    (tbl : List ((Key × Nat) × Nat)) (pops : List Vertex) : Prop where
  sound : ∀ v ∈ heap, Reach adj v.at_key v.gathered_keys v.steps
  pops_ne : ∀ p ∈ pops, p.gathered_keys ≠ ak
  start_cov : (∃ v ∈ heap, v.at_key = (⟨'@'⟩ : Key) ∧ v.gathered_keys = 0 ∧ v.steps = 0) ∨
    (∃ p ∈ pops, p.at_key = (⟨'@'⟩ : Key) ∧ p.gathered_keys = 0 ∧ p.steps = 0)
  relaxed : ∀ p ∈ pops, ∀ es, adjGet p.at_key adj = some es → ∀ e ∈ es,
    e.needed_keys &&& p.gathered_keys = e.needed_keys →
    tableVal tbl (e.target_key, p.gathered_keys ||| e.target_key.bit_mask) ≤
      p.steps + e.steps
  covered : ∀ P c, costGet P tbl = some c → c < USIZE_MAX →
    (∃ v ∈ heap, v.at_key = P.1 ∧ v.gathered_keys = P.2 ∧ v.steps ≤ c) ∨
    (∃ p ∈ pops, p.at_key = P.1 ∧ p.gathered_keys = P.2 ∧ p.steps ≤ c)

lemma and_or_self_left (a b : Nat) : a &&& (a ||| b) = a := by
  apply Nat.eq_of_testBit_eq
  intro i
  simp only [Nat.testBit_and, Nat.testBit_or]
  cases h : a.testBit i <;> simp [h]

lemma submask_or_right {a b : Nat} (c : Nat) (h : a &&& b = a) : a &&& (c ||| b) = a := by
  apply Nat.eq_of_testBit_eq
  intro i
  have h' : (a.testBit i && b.testBit i) = a.testBit i := by
    rw [← Nat.testBit_and, h]
  simp only [Nat.testBit_and, Nat.testBit_or]
  cases ha : a.testBit i
  · simp
  · simp only [ha, Bool.true_and] at h'
    simp [h']

lemma submask_or_join {a b m : Nat} (ha : a &&& m = a) (hb : b &&& m = b) :
    (a ||| b) &&& m = a ||| b := by
  apply Nat.eq_of_testBit_eq
  intro i
  have ha' : (a.testBit i && m.testBit i) = a.testBit i := by rw [← Nat.testBit_and, ha]
  have hb' : (b.testBit i && m.testBit i) = b.testBit i := by rw [← Nat.testBit_and, hb]
  simp only [Nat.testBit_and, Nat.testBit_or]
  cases hA : a.testBit i <;> cases hB : b.testBit i <;>
    simp [hA, hB] at ha' hb' ⊢ <;> simp [ha', hb']

lemma submask_trans {a b c : Nat} (h1 : a &&& b = a) (h2 : b &&& c = b) :
    a &&& c = a := by
  apply Nat.eq_of_testBit_eq
  intro i
  have h1' : (a.testBit i && b.testBit i) = a.testBit i := by rw [← Nat.testBit_and, h1]
  have h2' : (b.testBit i && c.testBit i) = b.testBit i := by rw [← Nat.testBit_and, h2]
  simp only [Nat.testBit_and]
  cases ha : a.testBit i
  · simp
  · simp only [ha, Bool.true_and] at h1'
    simp only [h1', Bool.true_and] at h2'
    simp [h2']

lemma char_le_toNat {a b : Char} (h : a ≤ b) : a.toNat ≤ b.toNat := h

lemma toNat_le_char {a b : Char} (h : a.toNat ≤ b.toNat) : a ≤ b := h

lemma lower_char_toNat {n : Nat} (h : n < 55296) : (Char.ofNat n).toNat = n := by
  unfold Char.ofNat
  split
  · rfl
  · rename_i hv
    exact absurd (Or.inl h) hv

lemma bit_mask_eq_pow (k : Key) : Key.bit_mask k = 2 ^ (k.value.toNat - 'a'.toNat) :=
  Nat.one_shiftLeft _

lemma bit_mask_lt {k : Key} (_h1 : 'a' ≤ k.value) (h2 : k.value ≤ 'z') :
    Key.bit_mask k < 2 ^ 26 := by
  rw [bit_mask_eq_pow]
  have h2' : k.value.toNat ≤ 'z'.toNat := char_le_toNat h2
  have hz : 'z'.toNat = 122 := by decide
  have ha : 'a'.toNat = 97 := by decide
  have hle : k.value.toNat - 'a'.toNat ≤ 25 := by omega
  calc 2 ^ (k.value.toNat - 'a'.toNat) ≤ 2 ^ 25 := Nat.pow_le_pow_right (by omega) hle
    _ < 2 ^ 26 := by omega

lemma bit_mask_mem_row {c : Char} {row : List Char} (h1 : 'a' ≤ c) (h2 : c ≤ 'z')
    (hc : c ∈ row) : Key.bit_mask ⟨c⟩ &&& rowKeysBitset row = Key.bit_mask ⟨c⟩ := by
  induction row with
  | nil => exact absurd hc (List.not_mem_nil c)
  | cons d rest ih =>
    rcases List.mem_cons.mp hc with h | h
    · subst h
      simp only [rowKeysBitset, h1, h2, and_self, if_pos]
      exact and_or_self_left _ _
    · exact submask_or_right _ (ih h)

lemma row_submask_all {row : List Char} {lines : List (List Char)} (h : row ∈ lines) :
    rowKeysBitset row &&& allKeysBitset lines = rowKeysBitset row := by
  induction lines with
  | nil => exact absurd h (List.not_mem_nil row)
  | cons r rest ih =>
    rcases List.mem_cons.mp h with h' | h'
    · subst h'
      exact and_or_self_left _ _
    · exact submask_or_right _ (ih h')

lemma containsKey_insertKey {k k' : Key} {p : Pos} {l : List (Key × Pos)}
    (h : containsKey k (insertKey k' p l) = true) :
    k = k' ∨ containsKey k l = true := by
  induction l with
  | nil =>
    simp only [insertKey, containsKey] at h
    split at h
    · rename_i hk
      exact Or.inl hk.symm
    · cases h
  | cons kv rest ih =>
    obtain ⟨k0, p0⟩ := kv
    simp only [insertKey] at h
    split at h
    · simp only [containsKey] at h
      split at h
      · rename_i hk
        exact Or.inl hk.symm
      · right
        simp only [containsKey]
        split
        · rfl
        · exact h
    · simp only [containsKey] at h
      split at h
      · rename_i hk
        right
        simp only [containsKey, if_pos hk]
      · rcases ih h with h' | h'
        · exact Or.inl h'
        · right
          simp only [containsKey]
          split
          · rfl
          · exact h'

lemma containsKey_scanRowKeys {k : Key} {y : Nat} :
    ∀ (x : Nat) (cs : List Char) (acc : List (Key × Pos)),
      containsKey k (scanRowKeys y x cs acc) = true →
      containsKey k acc = true ∨
        (k.value ∈ cs ∧ (k.value = '@' ∨ ('a' ≤ k.value ∧ k.value ≤ 'z'))) := by
  intro x cs
  induction cs generalizing x with
  | nil => intro acc h; exact Or.inl h
  | cons c rest ih =>
    intro acc h
    simp only [scanRowKeys] at h
    rcases ih (x + 1) _ h with h' | h'
    · split at h'
      · rename_i hc
        rcases containsKey_insertKey h' with he | he
        · subst he
          exact Or.inr ⟨by simp [hc], Or.inl rfl⟩
        · exact Or.inl he
      · split at h'
        · rename_i hc1 hc2
          rcases containsKey_insertKey h' with he | he
          · subst he
            exact Or.inr ⟨by simp, Or.inr hc2⟩
          · exact Or.inl he
        · exact Or.inl h'
    · exact Or.inr ⟨List.mem_cons_of_mem _ h'.1, h'.2⟩

lemma containsKey_scanKeys {k : Key} :
    ∀ (y : Nat) (rows : List (List Char)) (acc : List (Key × Pos)),
      containsKey k (scanKeys y rows acc) = true →
      containsKey k acc = true ∨
        (∃ row ∈ rows, k.value ∈ row ∧
          (k.value = '@' ∨ ('a' ≤ k.value ∧ k.value ≤ 'z'))) := by
  intro y rows
  induction rows generalizing y with
  | nil => intro acc h; exact Or.inl h
  | cons row rest ih =>
    intro acc h
    simp only [scanKeys] at h
    rcases ih (y + 1) _ h with h' | h'
    · rcases containsKey_scanRowKeys 0 row acc h' with h'' | h''
      · exact Or.inl h''
      · exact Or.inr ⟨row, List.mem_cons_self _ _, h''⟩
    · obtain ⟨r, hr, hrest⟩ := h'
      exact Or.inr ⟨r, List.mem_cons_of_mem _ hr, hrest⟩

lemma FkOK_foundKeys (lines : List (List Char)) :
    FkOK (foundKeys lines) (allKeysBitset lines) := by
  intro k hk h1 h2
  rcases containsKey_scanKeys 0 lines [] hk with h | h
  · exact absurd h (by simp [containsKey])
  · obtain ⟨row, hrow, hmem, hkind⟩ := h
    rcases hkind with hat | _
    · exfalso
      have h1' := char_le_toNat h1
      rw [hat] at h1'
      exact absurd h1' (by decide)
    · exact submask_trans (bit_mask_mem_row h1 h2 hmem) (row_submask_all hrow)

lemma rowKeysBitset_lt (row : List Char) : rowKeysBitset row < 2 ^ 26 := by
  induction row with
  | nil => simp [rowKeysBitset]
  | cons c rest ih =>
    simp only [rowKeysBitset]
    apply Nat.or_lt_two_pow _ ih
    split
    · rename_i hc
      exact bit_mask_lt hc.1 hc.2
    · positivity

lemma allKeysBitset_lt (lines : List (List Char)) : allKeysBitset lines < 2 ^ 26 := by
  induction lines with
  | nil => simp [allKeysBitset]
  | cons row rest ih =>
    exact Nat.or_lt_two_pow (rowKeysBitset_lt row) ih

lemma stepDir_inv {m : Pos → Option Char} {fk : List (Key × Pos)} {AK : Nat}
    {position : Pos} {needed_keys steps : Nat} {st st' : BfsState} {d : Pos}
    (hfk : FkOK fk AK) (hn : NeededOK AK needed_keys) (hst : StInv AK st)
    (h : stepDir m fk position needed_keys steps st d = .ok st') : StInv AK st' := by
  unfold stepDir at h
  dsimp only at h
  split at h
  · cases h
    exact hst
  · rename_i c hm
    split at h
    · cases h
    · rename_i nn fkey heq
      split at h
      · cases h
        exact hst
      · cases h
        have hnn : NeededOK AK nn ∧ (∀ k : Key, fkey = some k →
            'a' ≤ k.value ∧ k.value ≤ 'z') := by
          split at heq
          · rename_i hc
            have hc1 : 'A'.toNat ≤ c.toNat := char_le_toNat hc.1
            have hc2 : c.toNat ≤ 'Z'.toNat := char_le_toNat hc.2
            have hA : 'A'.toNat = 65 := by decide
            have hZ : 'Z'.toNat = 90 := by decide
            have hvalid : c.toNat + 32 < 55296 := by omega
            have htn : (Char.ofNat (c.toNat + 32)).toNat = c.toNat + 32 :=
              lower_char_toNat hvalid
            simp only [Except.ok.injEq, Prod.mk.injEq] at heq
            obtain ⟨h1, h2⟩ := heq
            constructor
            · rw [← h1]
              split
              · rename_i hcont
                have hb1 : 'a' ≤ (Char.ofNat (c.toNat + 32)) := by
                  apply toNat_le_char
                  rw [htn]
                  have : 'a'.toNat = 97 := by decide
                  omega
                have hb2 : (Char.ofNat (c.toNat + 32)) ≤ 'z' := by
                  apply toNat_le_char
                  rw [htn]
                  have : 'z'.toNat = 122 := by decide
                  omega
                refine ⟨Nat.or_lt_two_pow hn.1 (bit_mask_lt hb1 hb2), ?_⟩
                exact submask_or_join hn.2 (hfk _ hcont hb1 hb2)
              · exact hn
            · intro k hk
              rw [← h2] at hk
              cases hk
          · split at heq
            · rename_i hc
              simp only [Except.ok.injEq, Prod.mk.injEq] at heq
              obtain ⟨h1, h2⟩ := heq
              refine ⟨h1 ▸ hn, ?_⟩
              intro k hk
              rw [← h2] at hk
              cases hk
              exact hc
            · split at heq
              · simp only [Except.ok.injEq, Prod.mk.injEq] at heq
                obtain ⟨h1, h2⟩ := heq
                refine ⟨h1 ▸ hn, ?_⟩
                intro k hk
                rw [← h2] at hk
                cases hk
              · cases heq
        constructor
        · intro q hq
          rcases List.mem_append.mp hq with h' | h'
          · exact hst.1 q h'
          · rcases List.mem_singleton.mp h' with rfl
            exact hnn.1
        · intro e he
          rcases List.mem_append.mp he with h' | h'
          · exact hst.2 e h'
          · cases hfe : fkey with
            | none =>
              rw [hfe] at h'
              cases h'
            | some tk =>
              rw [hfe] at h'
              rcases List.mem_singleton.mp h' with rfl
              obtain ⟨hb1, hb2⟩ := hnn.2 tk hfe
              exact ⟨hb1, hb2, hnn.1⟩

lemma stepDirList_inv {m : Pos → Option Char} {fk : List (Key × Pos)} {AK : Nat}
    {position : Pos} {needed_keys steps : Nat}
    (hfk : FkOK fk AK) (hn : NeededOK AK needed_keys) :
    ∀ (ds : List Pos) (st st' : BfsState), StInv AK st →
      stepDirList m fk position needed_keys steps ds st = .ok st' → StInv AK st' := by
  intro ds
  induction ds with
  | nil =>
    intro st st' hst h
    cases h
    exact hst
  | cons d ds ih =>
    intro st st' hst h
    unfold stepDirList at h
    split at h
    · cases h
    · rename_i st1 heq
      exact ih st1 st' (stepDir_inv hfk hn hst heq) h

lemma bfsLoop_inv {m : Pos → Option Char} {fk : List (Key × Pos)} {AK : Nat}
    (hfk : FkOK fk AK) :
    ∀ (fuel : Nat) (st : BfsState) (es : List Edge), StInv AK st →
      bfsLoop m fk fuel st = .ok es → ∀ e ∈ es, EdgeOK AK e := by
  intro fuel
  induction fuel with
  | zero =>
    intro st es hst h
    unfold bfsLoop at h
    split at h
    · cases h
      exact hst.2
    · exact Except.noConfusion h
  | succ fuel ih =>
    intro st es hst h
    unfold bfsLoop at h
    split at h
    · cases h
      exact hst.2
    · rename_i position needed_keys steps rest hq
      split at h
      · cases h
      · rename_i fuel' heqf
        obtain rfl : fuel' = fuel := by omega
        split at h
        · cases h
        · rename_i st1 heq
          have hn : NeededOK AK needed_keys := by
            have : (position, needed_keys, steps) ∈ st.queue := by
              rw [hq]
              exact List.mem_cons_self _ _
            exact hst.1 _ this
          have hst' : StInv AK { st with queue := rest } := by
            refine ⟨?_, hst.2⟩
            intro q hqmem
            apply hst.1
            rw [hq]
            exact List.mem_cons_of_mem _ hqmem
          exact ih st1 es (stepDirList_inv hfk hn DIRECTIONS _ _ hst' heq) h

lemma findEdgesFrom_inv {m : Pos → Option Char} {fk : List (Key × Pos)} {AK : Nat}
    {fuel : Nat} {src : Pos} {es : List Edge} (hfk : FkOK fk AK)
    (h : findEdgesFrom m fk fuel src = .ok es) : ∀ e ∈ es, EdgeOK AK e := by
  apply bfsLoop_inv hfk fuel _ es _ h
  constructor
  · intro q hq
    rcases List.mem_singleton.mp hq with rfl
    exact ⟨by norm_num, Nat.zero_and AK⟩
  · intro e he
    cases he

lemma buildAdjacencyAux_edges {m : Pos → Option Char} {fk : List (Key × Pos)}
    {AK : Nat} {fuel : Nat} (hfk : FkOK fk AK) :
    ∀ (srcs : List (Key × Pos)) (adj : List (Key × List Edge)),
      buildAdjacencyAux m fk fuel srcs = .ok adj →
      ∀ k es, (k, es) ∈ adj → ∀ e ∈ es, EdgeOK AK e := by
  intro srcs
  induction srcs with
  | nil =>
    intro adj h k es hmem
    cases h
    cases hmem
  | cons kp rest ih =>
    obtain ⟨k0, p0⟩ := kp
    intro adj h k es hmem e he
    unfold buildAdjacencyAux at h
    split at h
    · cases h
    · rename_i es0 heq0
      split at h
      · cases h
      · rename_i adj' heq1
        cases h
        split at hmem
        · exact ih adj' heq1 k es hmem e he
        · rcases List.mem_cons.mp hmem with h' | h'
          · cases h'
            exact findEdgesFrom_inv hfk heq0 e he
          · exact ih adj' heq1 k es h' e he

lemma stepDir_congr {m1 m2 : Pos → Option Char} {fk : List (Key × Pos)}
    (hm : CellEquiv fk m1 m2) (position : Pos) (needed_keys steps : Nat)
    (st : BfsState) (d : Pos) :
    stepDir m1 fk position needed_keys steps st d =
      stepDir m2 fk position needed_keys steps st d := by
  rcases hm (position.1 + d.1, position.2 + d.2) with he | ⟨h1, D, h2, hD1, hD2, hcont⟩
  · unfold stepDir
    dsimp only
    rw [he]
  · unfold stepDir
    dsimp only
    rw [h1, h2]
    have hdot1 : ¬('A' ≤ '.' ∧ '.' ≤ 'Z') := by decide
    have hdot2 : ¬('a' ≤ '.' ∧ '.' ≤ 'z') := by decide
    simp only [hdot1, hdot2, if_false, if_true, if_neg, if_pos, hD1, hD2, and_self,
      ite_true, ite_false, reduceIte, hcont, Bool.false_eq_true]

lemma stepDirList_congr {m1 m2 : Pos → Option Char} {fk : List (Key × Pos)}
    (hm : CellEquiv fk m1 m2) (position : Pos) (needed_keys steps : Nat) :
    ∀ (ds : List Pos) (st : BfsState),
      stepDirList m1 fk position needed_keys steps ds st =
        stepDirList m2 fk position needed_keys steps ds st := by
  intro ds
  induction ds with
  | nil => intro st; rfl
  | cons d ds ih =>
    intro st
    unfold stepDirList
    rw [stepDir_congr hm position needed_keys steps st d]
    cases stepDir m2 fk position needed_keys steps st d with
    | error e => rfl
    | ok st' => exact ih st'

lemma bfsLoop_congr {m1 m2 : Pos → Option Char} {fk : List (Key × Pos)}
    (hm : CellEquiv fk m1 m2) :
    ∀ (fuel : Nat) (st : BfsState), bfsLoop m1 fk fuel st = bfsLoop m2 fk fuel st := by
  intro fuel
  induction fuel with
  | zero =>
    intro st
    unfold bfsLoop
    cases hq : st.queue with
    | nil => simp only [hq]
    | cons q rest =>
      obtain ⟨position, needed_keys, steps⟩ := q
      simp only [hq]
  | succ fuel ih =>
    intro st
    unfold bfsLoop
    cases hq : st.queue with
    | nil => simp only [hq]
    | cons q rest =>
      obtain ⟨position, needed_keys, steps⟩ := q
      simp only [hq]
      rw [stepDirList_congr hm position needed_keys steps DIRECTIONS { st with queue := rest }]
      cases stepDirList m2 fk position needed_keys steps DIRECTIONS { st with queue := rest } with
      | error e => rfl
      | ok st' => exact ih st'

lemma buildAdjacencyAux_congr {m1 m2 : Pos → Option Char} {fk : List (Key × Pos)}
    {fuel : Nat} (hm : CellEquiv fk m1 m2) :
    ∀ srcs : List (Key × Pos),
      buildAdjacencyAux m1 fk fuel srcs = buildAdjacencyAux m2 fk fuel srcs := by
  intro srcs
  induction srcs with
  | nil => rfl
  | cons kp rest ih =>
    obtain ⟨k0, p0⟩ := kp
    unfold buildAdjacencyAux findEdgesFrom
    rw [bfsLoop_congr hm, ih]

lemma steps_congr {l1 l2 : List (List Char)}
    (hfk : foundKeys l1 = foundKeys l2)
    (hak : allKeysBitset l1 = allKeysBitset l2)
    (hfuel : totalCellsFuel l1 = totalCellsFuel l2)
    (hm : CellEquiv (foundKeys l1) (mapAt l1) (mapAt l2)) :
    steps_to_gather_all_keys l1 = steps_to_gather_all_keys l2 := by
  unfold steps_to_gather_all_keys buildAdjacency
  rw [← hfk, ← hak, ← hfuel, buildAdjacencyAux_congr hm]

lemma char_toNat_inj {a b : Char} (h : a.toNat = b.toNat) : a = b := by
  have ha := Char.ofNat_toNat a
  have hb := Char.ofNat_toNat b
  rw [← ha, ← hb, h]

lemma setInRow_length (c : Char) : ∀ (i : Nat) (row : List Char),
    (setInRow c i row).length = row.length := by
  intro i row
  induction row generalizing i with
  | nil => cases i <;> rfl
  | cons d cs ih =>
    cases i with
    | zero => rfl
    | succ i => simp [setInRow, ih i]

lemma setInRow_get_other (c : Char) : ∀ (i j : Nat) (row : List Char), j ≠ i →
    (setInRow c i row).get? j = row.get? j := by
  intro i j row
  induction row generalizing i j with
  | nil => intro _; cases i <;> rfl
  | cons d cs ih =>
    intro hne
    cases i with
    | zero =>
      cases j with
      | zero => exact absurd rfl hne
      | succ j => rfl
    | succ i =>
      cases j with
      | zero => rfl
      | succ j => simpa [setInRow] using ih i j (by omega)

lemma setInRow_get_same (c c0 : Char) : ∀ (i : Nat) (row : List Char),
    row.get? i = some c0 → (setInRow c i row).get? i = some c := by
  intro i row
  induction row generalizing i with
  | nil => intro h; cases h
  | cons d cs ih =>
    intro h
    cases i with
    | zero => rfl
    | succ i => simpa [setInRow] using ih i (by simpa using h)

lemma setCell_get_other (c : Char) (x : Nat) : ∀ (y r : Nat) (lines : List (List Char)),
    r ≠ y → (setCell c x y lines).get? r = lines.get? r := by
  intro y r lines
  induction lines generalizing y r with
  | nil => intro _; cases y <;> rfl
  | cons row rows ih =>
    intro hne
    cases y with
    | zero =>
      cases r with
      | zero => exact absurd rfl hne
      | succ r => rfl
    | succ y =>
      cases r with
      | zero => rfl
      | succ r => simpa [setCell] using ih y r (by omega)

lemma setCell_get_same (c : Char) (x : Nat) : ∀ (y : Nat) (lines : List (List Char))
    (row : List Char), lines.get? y = some row →
    (setCell c x y lines).get? y = some (setInRow c x row) := by
  intro y lines
  induction lines generalizing y with
  | nil => intro row h; cases h
  | cons r0 rows ih =>
    intro row h
    cases y with
    | zero =>
      cases h
      rfl
    | succ y => simpa [setCell] using ih y row (by simpa using h)

lemma totalCellsFuel_setCell (c : Char) (x : Nat) : ∀ (y : Nat) (lines : List (List Char)),
    totalCellsFuel (setCell c x y lines) = totalCellsFuel lines := by
  intro y lines
  unfold totalCellsFuel
  congr 1
  induction lines generalizing y with
  | nil => cases y <;> rfl
  | cons row rows ih =>
    cases y with
    | zero => simp [setCell, setInRow_length]
    | succ y => simp [setCell, List.foldr, ih y]

lemma scanRowKeys_neutral {D : Char} (hD1 : ¬D = '@') (hD2 : ¬('a' ≤ D ∧ D ≤ 'z'))
    {y : Nat} : ∀ (row : List Char) (i x : Nat) (acc : List (Key × Pos)),
      row.get? i = some '.' →
      scanRowKeys y x (setInRow D i row) acc = scanRowKeys y x row acc := by
  intro row
  induction row with
  | nil => intro i x acc h; cases h
  | cons c0 cs ih =>
    intro i x acc h
    cases i with
    | zero =>
      cases h
      have hdot1 : ¬('.' = '@') := by decide
      have hdot2 : ¬('a' ≤ '.' ∧ '.' ≤ 'z') := by decide
      simp only [setInRow, scanRowKeys, hD1, hD2, hdot1, hdot2, if_false, reduceIte]
    | succ i =>
      simp only [setInRow, scanRowKeys]
      exact ih i (x + 1) _ (by simpa using h)

lemma scanKeys_setCell {D : Char} (hD1 : ¬D = '@') (hD2 : ¬('a' ≤ D ∧ D ≤ 'z'))
    {x : Nat} : ∀ (lines : List (List Char)) (yi y0 : Nat) (acc : List (Key × Pos))
      (row : List Char), lines.get? yi = some row → row.get? x = some '.' →
      scanKeys y0 (setCell D x yi lines) acc = scanKeys y0 lines acc := by
  intro lines
  induction lines with
  | nil => intro yi y0 acc row h; cases h
  | cons r0 rows ih =>
    intro yi y0 acc row h hrow
    cases yi with
    | zero =>
      cases h
      simp only [setCell, scanKeys]
      rw [scanRowKeys_neutral hD1 hD2 _ x 0 acc hrow]
    | succ yi =>
      simp only [setCell, scanKeys]
      exact ih yi (y0 + 1) _ row (by simpa using h) hrow

lemma rowKeysBitset_neutral {D : Char} (hD2 : ¬('a' ≤ D ∧ D ≤ 'z')) :
    ∀ (row : List Char) (i : Nat), row.get? i = some '.' →
      rowKeysBitset (setInRow D i row) = rowKeysBitset row := by
  intro row
  induction row with
  | nil => intro i h; cases h
  | cons c0 cs ih =>
    intro i h
    cases i with
    | zero =>
      cases h
      have hdot : ¬('a' ≤ '.' ∧ '.' ≤ 'z') := by decide
      simp only [setInRow, rowKeysBitset, hD2, hdot, if_false, reduceIte]
    | succ i =>
      simp only [setInRow, rowKeysBitset]
      rw [ih i (by simpa using h)]

lemma allKeysBitset_setCell {D : Char} (hD2 : ¬('a' ≤ D ∧ D ≤ 'z')) {x : Nat} :
    ∀ (lines : List (List Char)) (yi : Nat) (row : List Char),
      lines.get? yi = some row → row.get? x = some '.' →
      allKeysBitset (setCell D x yi lines) = allKeysBitset lines := by
  intro lines
  induction lines with
  | nil => intro yi row h; cases h
  | cons r0 rows ih =>
    intro yi row h hrow
    cases yi with
    | zero =>
      cases h
      simp only [setCell, allKeysBitset]
      rw [rowKeysBitset_neutral hD2 _ x hrow]
    | succ yi =>
      simp only [setCell, allKeysBitset]
      rw [ih yi row (by simpa using h) hrow]

lemma rowKeysBitset_testBit {row : List Char} {i : Nat}
    (h : (rowKeysBitset row).testBit i = true) :
    ∃ c ∈ row, ('a' ≤ c ∧ c ≤ 'z') ∧ c.toNat - 'a'.toNat = i := by
  induction row with
  | nil => simp [rowKeysBitset] at h
  | cons c0 cs ih =>
    simp only [rowKeysBitset, Nat.testBit_or, Bool.or_eq_true] at h
    rcases h with h | h
    · split at h
      · rename_i hc
        rw [bit_mask_eq_pow, Nat.testBit_two_pow] at h
        exact ⟨c0, List.mem_cons_self _ _, hc, by simpa using h⟩
      · simp [Nat.zero_testBit] at h
    · obtain ⟨c, hc, hcc⟩ := ih h
      exact ⟨c, List.mem_cons_of_mem _ hc, hcc⟩

lemma allKeysBitset_testBit {lines : List (List Char)} {i : Nat}
    (h : (allKeysBitset lines).testBit i = true) :
    ∃ row ∈ lines, ∃ c ∈ row, ('a' ≤ c ∧ c ≤ 'z') ∧ c.toNat - 'a'.toNat = i := by
  induction lines with
  | nil => simp [allKeysBitset] at h
  | cons row rows ih =>
    simp only [allKeysBitset, Nat.testBit_or, Bool.or_eq_true] at h
    rcases h with h | h
    · exact ⟨row, List.mem_cons_self _ _, rowKeysBitset_testBit h⟩
    · obtain ⟨r, hr, hc⟩ := ih h
      exact ⟨r, List.mem_cons_of_mem _ hr, hc⟩

lemma containsKey_absent {lines : List (List Char)} {c : Char}
    (habs : ∀ row ∈ lines, c ∉ row) :
    containsKey ⟨c⟩ (foundKeys lines) = false := by
  cases hk : containsKey ⟨c⟩ (foundKeys lines) with
  | false => rfl
  | true =>
    exfalso
    rcases containsKey_scanKeys 0 lines [] hk with h | h
    · cases h
    · obtain ⟨row, hrow, hmem, _⟩ := h
      exact habs row hrow hmem

lemma setCell_get_none (c : Char) (x : Nat) : ∀ (y : Nat) (lines : List (List Char)),
    lines.get? y = none → (setCell c x y lines).get? y = none := by
  intro y lines
  induction lines generalizing y with
  | nil => intro _; cases y <;> rfl
  | cons r0 rows ih =>
    intro h
    cases y with
    | zero => cases h
    | succ y => simpa [setCell] using ih y (by simpa using h)

lemma cellAt_setCell_other (c : Char) (x y : Nat) (lines : List (List Char)) (p : Pos)
    (hp : p ≠ ((x : Int), (y : Int))) :
    cellAt (setCell c x y lines) p = cellAt lines p := by
  unfold cellAt
  split
  · rename_i hG
    by_cases hy : p.2.toNat = y
    · have hx : p.1.toNat ≠ x := by
        intro hx
        apply hp
        calc p = (p.1, p.2) := rfl
          _ = ((p.1.toNat : Int), (p.2.toNat : Int)) := by
              rw [Int.toNat_of_nonneg hG.1, Int.toNat_of_nonneg hG.2]
          _ = ((x : Int), (y : Int)) := by rw [hx, hy]
      rw [hy]
      cases hr : lines.get? y with
      | none => rw [setCell_get_none c x y lines hr]
      | some row =>
        rw [setCell_get_same c x y lines row hr]
        simp only [Option.some_bind]
        exact setInRow_get_other c x p.1.toNat row hx
    · rw [setCell_get_other c x y p.2.toNat lines hy]
  · rfl

lemma cellAt_setCell_self {c c0 : Char} {x y : Nat} {lines : List (List Char)}
    (h : cellAt lines ((x : Int), (y : Int)) = some c0) :
    cellAt (setCell c x y lines) ((x : Int), (y : Int)) = some c := by
  unfold cellAt at h ⊢
  rw [if_pos ⟨Int.natCast_nonneg x, Int.natCast_nonneg y⟩] at h ⊢
  simp only [Int.toNat_ofNat] at h ⊢
  cases hr : lines.get? y with
  | none => rw [hr] at h; cases h
  | some row =>
    rw [hr] at h
    simp only [Option.some_bind] at h
    rw [setCell_get_same c x y lines row hr]
    simp only [Option.some_bind]
    exact setInRow_get_same c c0 x row h

lemma adjacency_needed_submask {lines : List (List Char)} {adj : List (Key × List Edge)}
    (h : buildAdjacency lines = .ok adj) :
    ∀ k es, (k, es) ∈ adj → ∀ e ∈ es,
      e.needed_keys &&& allKeysBitset lines = e.needed_keys := by
  intro k es hmem e he
  unfold buildAdjacency at h
  exact (buildAdjacencyAux_edges (FkOK_foundKeys lines) _ adj h k es hmem e he).2.2.2

lemma costGet_costSet (p q : Key × Nat) (v : Nat) : ∀ tbl : List ((Key × Nat) × Nat),
    costGet p (costSet q v tbl) = if q = p then some v else costGet p tbl := by
  intro tbl
  induction tbl with
  | nil =>
    simp only [costSet, costGet]
  | cons qv rest ih =>
    obtain ⟨q0, v0⟩ := qv
    simp only [costSet]
    split
    · rename_i hq0
      subst hq0
      simp only [costGet]
      split <;> rfl
    · rename_i hq0
      simp only [costGet]
      rw [ih]
      by_cases h0 : q0 = p
      · have h1 : ¬q = p := fun h1 => hq0 (by rw [h0, h1])
        rw [if_pos h0, if_neg h1, if_pos h0]
      · rw [if_neg h0, if_neg h0]

lemma tableVal_costSet (q : Key × Nat) (v : Nat) (tbl : List ((Key × Nat) × Nat))
    (p : Key × Nat) :
    tableVal (costSet q v tbl) p = if q = p then v else tableVal tbl p := by
  unfold tableVal
  rw [costGet_costSet]
  split <;> rfl

lemma tableVal_costSet_self (q : Key × Nat) (tbl : List ((Key × Nat) × Nat))
    (p : Key × Nat) :
    tableVal (costSet q (tableVal tbl q) tbl) p = tableVal tbl p := by
  rw [tableVal_costSet]
  split
  · rename_i h
    rw [h]
  · rfl

lemma relaxEdges_tbl_le (g s : Nat) : ∀ (es : List Edge) (heap : List Vertex)
    (tbl : List ((Key × Nat) × Nat)) (p : Key × Nat),
    tableVal (relaxEdges g s es heap tbl).2 p ≤ tableVal tbl p := by
  intro es
  induction es with
  | nil => intro heap tbl p; exact le_refl _
  | cons e es ih =>
    intro heap tbl p
    unfold relaxEdges
    dsimp only
    split
    · split
      · rename_i hlt
        calc tableVal (relaxEdges g s es (heap ++ [_]) (costSet _ (s + e.steps) tbl)).2 p
            ≤ tableVal (costSet (e.target_key, g ||| e.target_key.bit_mask) (s + e.steps) tbl) p :=
              ih _ _ p
          _ ≤ tableVal tbl p := by
              rw [tableVal_costSet]
              split
              · rename_i hpr
                rw [← hpr]
                exact le_of_lt hlt
              · exact le_refl _
      · calc tableVal (relaxEdges g s es heap (costSet _ _ tbl)).2 p
            ≤ tableVal (costSet (e.target_key, g ||| e.target_key.bit_mask)
                (tableVal tbl (e.target_key, g ||| e.target_key.bit_mask)) tbl) p := ih _ _ p
          _ = tableVal tbl p := tableVal_costSet_self _ tbl p
    · exact ih heap tbl p

lemma relaxEdges_dom (g s : Nat) : ∀ (es : List Edge) (heap : List Vertex)
    (tbl : List ((Key × Nat) × Nat)) (p : Key × Nat),
    (costGet p tbl).isSome = true → (costGet p (relaxEdges g s es heap tbl).2).isSome = true := by
  intro es
  induction es with
  | nil => intro heap tbl p h; exact h
  | cons e es ih =>
    intro heap tbl p h
    unfold relaxEdges
    dsimp only
    split
    · split
      · apply ih
        rw [costGet_costSet]
        split
        · rfl
        · exact h
      · apply ih
        rw [costGet_costSet]
        split
        · rfl
        · exact h
    · exact ih heap tbl p h

lemma relaxEdges_push_lt (g s : Nat) : ∀ (es : List Edge) (heap : List Vertex)
    (tbl : List ((Key × Nat) × Nat)) (v : Vertex),
    v ∈ (relaxEdges g s es heap tbl).1 →
    v ∈ heap ∨ v.steps < tableVal tbl (v.at_key, v.gathered_keys) := by
  intro es
  induction es with
  | nil => intro heap tbl v hv; exact Or.inl hv
  | cons e es ih =>
    intro heap tbl v hv
    unfold relaxEdges at hv
    dsimp only at hv
    split at hv
    · split at hv
      · rename_i hlt
        rcases ih _ _ v hv with h' | h'
        · rcases List.mem_append.mp h' with h'' | h''
          · exact Or.inl h''
          · rcases List.mem_singleton.mp h'' with rfl
            exact Or.inr hlt
        · rw [tableVal_costSet] at h'
          split at h'
          · rename_i hpr
            right
            rw [← hpr]
            exact lt_trans h' hlt
          · exact Or.inr h'
      · rcases ih _ _ v hv with h' | h'
        · exact Or.inl h'
        · rw [tableVal_costSet] at h'
          split at h'
          · rename_i hpr
            right
            rw [← hpr]
            exact h'
          · exact Or.inr h'
    · rcases ih _ _ v hv with h' | h'
      · exact Or.inl h'
      · exact Or.inr h'

lemma relaxEdges_gated_le (g s : Nat) : ∀ (es : List Edge) (heap : List Vertex)
    (tbl : List ((Key × Nat) × Nat)) (e : Edge), e ∈ es →
    e.needed_keys &&& g = e.needed_keys →
    tableVal (relaxEdges g s es heap tbl).2 (e.target_key, g ||| e.target_key.bit_mask) ≤
      s + e.steps := by
  intro es
  induction es with
  | nil => intro heap tbl e he; cases he
  | cons e0 es ih =>
    intro heap tbl e he hgate
    rcases List.mem_cons.mp he with rfl | he'
    · unfold relaxEdges
      dsimp only
      rw [if_pos hgate]
      split
      · rename_i hlt
        calc tableVal (relaxEdges g s es _ _).2 (e.target_key, g ||| e.target_key.bit_mask)
            ≤ tableVal (costSet (e.target_key, g ||| e.target_key.bit_mask) (s + e.steps) tbl)
                (e.target_key, g ||| e.target_key.bit_mask) := relaxEdges_tbl_le g s es _ _ _
          _ = s + e.steps := by rw [tableVal_costSet, if_pos rfl]
      · rename_i hge
        have hcur : tableVal tbl (e.target_key, g ||| e.target_key.bit_mask) ≤ s + e.steps := by
          unfold tableVal
          omega
        calc tableVal (relaxEdges g s es _ _).2 (e.target_key, g ||| e.target_key.bit_mask)
            ≤ tableVal (costSet (e.target_key, g ||| e.target_key.bit_mask)
                (tableVal tbl (e.target_key, g ||| e.target_key.bit_mask)) tbl)
                (e.target_key, g ||| e.target_key.bit_mask) := relaxEdges_tbl_le g s es _ _ _
          _ = tableVal tbl (e.target_key, g ||| e.target_key.bit_mask) := by
              rw [tableVal_costSet, if_pos rfl]
          _ ≤ s + e.steps := hcur
    · unfold relaxEdges
      dsimp only
      split
      · split
        · exact ih _ _ e he' hgate
        · exact ih _ _ e he' hgate
      · exact ih _ _ e he' hgate

lemma dijkstraLoopT_fst (adj : List (Key × List Edge)) (ak : Nat) :
    ∀ (fuel : Nat) (heap : List Vertex) (tbl : List ((Key × Nat) × Nat)),
      (dijkstraLoopT adj ak fuel heap tbl).1 = dijkstraLoop adj ak fuel heap tbl := by
  intro fuel
  induction fuel with
  | zero =>
    intro heap tbl
    unfold dijkstraLoopT dijkstraLoop
    cases hpm : popMax heap with
    | none => simp only [hpm]
    | some pr =>
      obtain ⟨current, heap'⟩ := pr
      simp only [hpm]
      by_cases hg : current.gathered_keys = ak
      · simp only [if_pos hg]
      · simp only [if_neg hg]
        cases adjGet current.at_key adj with
        | none => rfl
        | some edges => rfl
  | succ fuel ih =>
    intro heap tbl
    unfold dijkstraLoopT dijkstraLoop
    cases hpm : popMax heap with
    | none => simp only [hpm]
    | some pr =>
      obtain ⟨current, heap'⟩ := pr
      simp only [hpm]
      by_cases hg : current.gathered_keys = ak
      · simp only [if_pos hg]
      · simp only [if_neg hg]
        cases adjGet current.at_key adj with
        | none => rfl
        | some edges =>
          simp only
          cases hr : relaxEdges current.gathered_keys current.steps edges heap' tbl with
          | mk heap2 tbl2 =>
            simp only [hr]
            exact ih heap2 tbl2

lemma dijkstraLoopT_tbl_le (adj : List (Key × List Edge)) (ak : Nat) :
    ∀ (fuel : Nat) (heap : List Vertex) (tbl : List ((Key × Nat) × Nat)) (p : Key × Nat),
      tableVal (dijkstraLoopT adj ak fuel heap tbl).2 p ≤ tableVal tbl p := by
  intro fuel
  induction fuel with
  | zero =>
    intro heap tbl p
    unfold dijkstraLoopT
    cases hpm : popMax heap with
    | none => simp only [hpm]; exact le_refl _
    | some pr =>
      obtain ⟨current, heap'⟩ := pr
      simp only [hpm]
      by_cases hg : current.gathered_keys = ak
      · simp only [if_pos hg]; exact le_refl _
      · simp only [if_neg hg]
        cases adjGet current.at_key adj with
        | none => exact le_refl _
        | some edges => exact le_refl _
  | succ fuel ih =>
    intro heap tbl p
    unfold dijkstraLoopT
    cases hpm : popMax heap with
    | none => simp only [hpm]; exact le_refl _
    | some pr =>
      obtain ⟨current, heap'⟩ := pr
      simp only [hpm]
      by_cases hg : current.gathered_keys = ak
      · simp only [if_pos hg]; exact le_refl _
      · simp only [if_neg hg]
        cases adjGet current.at_key adj with
        | none => exact le_refl _
        | some edges =>
          simp only
          cases hr : relaxEdges current.gathered_keys current.steps edges heap' tbl with
          | mk heap2 tbl2 =>
            simp only [hr]
            calc tableVal (dijkstraLoopT adj ak fuel heap2 tbl2).2 p
                ≤ tableVal tbl2 p := ih heap2 tbl2 p
              _ ≤ tableVal tbl p := by
                  have := relaxEdges_tbl_le current.gathered_keys current.steps edges heap' tbl p
                  rw [hr] at this
                  exact this

lemma dijkstraLoopT_dom (adj : List (Key × List Edge)) (ak : Nat) :
    ∀ (fuel : Nat) (heap : List Vertex) (tbl : List ((Key × Nat) × Nat)) (p : Key × Nat),
      (costGet p tbl).isSome = true →
      (costGet p (dijkstraLoopT adj ak fuel heap tbl).2).isSome = true := by
  intro fuel
  induction fuel with
  | zero =>
    intro heap tbl p h
    unfold dijkstraLoopT
    cases hpm : popMax heap with
    | none => simpa only [hpm] using h
    | some pr =>
      obtain ⟨current, heap'⟩ := pr
      simp only [hpm]
      by_cases hg : current.gathered_keys = ak
      · simpa only [if_pos hg] using h
      · simp only [if_neg hg]
        cases adjGet current.at_key adj with
        | none => exact h
        | some edges => exact h
  | succ fuel ih =>
    intro heap tbl p h
    unfold dijkstraLoopT
    cases hpm : popMax heap with
    | none => simpa only [hpm] using h
    | some pr =>
      obtain ⟨current, heap'⟩ := pr
      simp only [hpm]
      by_cases hg : current.gathered_keys = ak
      · simpa only [if_pos hg] using h
      · simp only [if_neg hg]
        cases adjGet current.at_key adj with
        | none => exact h
        | some edges =>
          simp only
          cases hr : relaxEdges current.gathered_keys current.steps edges heap' tbl with
          | mk heap2 tbl2 =>
            simp only [hr]
            apply ih heap2 tbl2 p
            have := relaxEdges_dom current.gathered_keys current.steps edges heap' tbl p h
            rw [hr] at this
            exact this

lemma stepDir_error {m : Pos → Option Char} {fk : List (Key × Pos)} {position : Pos}
    {needed_keys steps : Nat} {st : BfsState} {d : Pos} {e : RunError}
    (h : stepDir m fk position needed_keys steps st d = .error e) :
    InvalidCellWitness m e := by
  unfold stepDir at h
  dsimp only at h
  split at h
  · cases h
  · rename_i c hm
    split at h
    · rename_i e' heq
      cases h
      split at heq
      · cases heq
      · split at heq
        · cases heq
        · split at heq
          · cases heq
          · rename_i h1 h2 h3
            cases heq
            exact ⟨_, c, rfl, hm, h1, h2, h3⟩
    · rename_i nn fkey heq
      split at h
      · cases h
      · cases h

lemma stepDirList_error {m : Pos → Option Char} {fk : List (Key × Pos)} {position : Pos}
    {needed_keys steps : Nat} {e : RunError} :
    ∀ (ds : List Pos) (st : BfsState),
      stepDirList m fk position needed_keys steps ds st = .error e →
      InvalidCellWitness m e := by
  intro ds
  induction ds with
  | nil => intro st h; cases h
  | cons d ds ih =>
    intro st h
    unfold stepDirList at h
    split at h
    · rename_i e' heq
      cases h
      exact stepDir_error heq
    · rename_i st' heq
      exact ih st' h

lemma bfsLoop_ime {m : Pos → Option Char} {fk : List (Key × Pos)} {e : RunError} :
    ∀ (fuel : Nat) (st : BfsState), bfsLoop m fk fuel st = .error e →
      e = .outOfFuel ∨ InvalidCellWitness m e := by
  intro fuel
  induction fuel with
  | zero =>
    intro st h
    unfold bfsLoop at h
    split at h
    · cases h
    · cases h
      exact Or.inl rfl
  | succ fuel ih =>
    intro st h
    unfold bfsLoop at h
    split at h
    · cases h
    · rename_i position needed_keys steps rest hq
      split at h
      · cases h
        exact Or.inl rfl
      · rename_i fuel' heqf
        split at h
        · rename_i e' heq
          cases h
          exact Or.inr (stepDirList_error DIRECTIONS _ heq)
        · rename_i st' heq
          obtain rfl : fuel' = fuel := by omega
          exact ih st' h

lemma buildAdjacencyAux_ime {m : Pos → Option Char} {fk : List (Key × Pos)}
    {fuel : Nat} {e : RunError} :
    ∀ srcs : List (Key × Pos), buildAdjacencyAux m fk fuel srcs = .error e →
      e = .outOfFuel ∨ InvalidCellWitness m e := by
  intro srcs
  induction srcs with
  | nil => intro h; cases h
  | cons kp rest ih =>
    obtain ⟨k0, p0⟩ := kp
    intro h
    unfold buildAdjacencyAux at h
    split at h
    · rename_i e' heq
      cases h
      exact bfsLoop_ime fuel _ heq
    · rename_i es0 heq0
      split at h
      · rename_i e' heq
        cases h
        exact ih heq
      · cases h

lemma dijkstraLoop_err {adj : List (Key × List Edge)} {ak : Nat} {e : RunError} :
    ∀ (fuel : Nat) (heap : List Vertex) (tbl : List ((Key × Nat) × Nat)),
      dijkstraLoop adj ak fuel heap tbl = .error e →
      e = .unwrapNone ∨ e = .outOfFuel := by
  intro fuel
  induction fuel with
  | zero =>
    intro heap tbl h
    unfold dijkstraLoop at h
    split at h
    · cases h
    · split at h
      · cases h
      · split at h
        · cases h
          exact Or.inl rfl
        · split at h
          · cases h
            exact Or.inr rfl
          · rename_i heqf
            omega
  | succ fuel ih =>
    intro heap tbl h
    unfold dijkstraLoop at h
    split at h
    · cases h
    · split at h
      · cases h
      · split at h
        · cases h
          exact Or.inl rfl
        · split at h
          · rename_i heqf
            omega
          · rename_i fuel' heqf
            split at h
            · obtain rfl : fuel' = fuel := by omega
              exact ih _ _ h

lemma splitRow_eq (cx cy y : Nat) : ∀ (cs : List Char) (x : Nat),
    splitRow cx cy y x cs =
      ((rewriteRow cx cy y x cs).take (cx + 1 - x),
       (rewriteRow cx cy y x cs).drop (cx + 1 - x)) := by
  intro cs
  induction cs with
  | nil => intro x; simp [splitRow, rewriteRow]
  | cons c cs ih =>
    intro x
    simp only [splitRow, rewriteRow, ih (x + 1)]
    by_cases hx : x ≤ cx
    · rw [if_pos hx]
      have h1 : cx + 1 - x = (cx - x) + 1 := by omega
      have h2 : cx + 1 - (x + 1) = cx - x := by omega
      rw [h1, h2, List.take_succ_cons, List.drop_succ_cons]
    · rw [if_neg hx]
      have h1 : cx + 1 - x = 0 := by omega
      have h2 : cx + 1 - (x + 1) = 0 := by omega
      rw [h1, h2]
      simp

lemma buildQuads_eq (cx cy : Nat) : ∀ (rows : List (List Char)) (y : Nat),
    buildQuads cx cy y rows =
      (((rewriteGrid cx cy y rows).take (cy + 1 - y)).map (List.take (cx + 1)),
       ((rewriteGrid cx cy y rows).take (cy + 1 - y)).map (List.drop (cx + 1)),
       ((rewriteGrid cx cy y rows).drop (cy + 1 - y)).map (List.take (cx + 1)),
       ((rewriteGrid cx cy y rows).drop (cy + 1 - y)).map (List.drop (cx + 1))) := by
  intro rows
  induction rows with
  | nil => intro y; simp [buildQuads, rewriteGrid]
  | cons row rows ih =>
    intro y
    simp only [buildQuads, rewriteGrid, ih (y + 1), splitRow_eq cx cy y row 0, Nat.sub_zero]
    by_cases hy : y ≤ cy
    · rw [if_pos hy]
      have h1 : cy + 1 - y = (cy - y) + 1 := by omega
      have h2 : cy + 1 - (y + 1) = cy - y := by omega
      rw [h1, h2, List.take_succ_cons, List.drop_succ_cons]
      simp
    · rw [if_neg hy]
      have h1 : cy + 1 - y = 0 := by omega
      have h2 : cy + 1 - (y + 1) = 0 := by omega
      rw [h1, h2]
      simp

lemma bfsLoopTrace_fst {m : Pos → Option Char} {fk : List (Key × Pos)} :
    ∀ (fuel : Nat) (st : BfsState) (trace : List Pos),
      (bfsLoopTrace m fk fuel st trace).1 = bfsLoop m fk fuel st := by
  intro fuel
  induction fuel with
  | zero =>
    intro st trace
    unfold bfsLoopTrace bfsLoop
    cases hq : st.queue with
    | nil => simp only [hq]
    | cons q rest =>
      obtain ⟨position, needed_keys, steps⟩ := q
      simp only [hq]
  | succ fuel ih =>
    intro st trace
    unfold bfsLoopTrace bfsLoop
    cases hq : st.queue with
    | nil => simp only [hq]
    | cons q rest =>
      obtain ⟨position, needed_keys, steps⟩ := q
      simp only [hq]
      cases stepDirList m fk position needed_keys steps DIRECTIONS { st with queue := rest } with
      | error e => rfl
      | ok st' => exact ih st' (trace ++ [position])

lemma not_lower_of_upper {c : Char} (h : 'A' ≤ c ∧ c ≤ 'Z') : ¬('a' ≤ c ∧ c ≤ 'z') := by
  rintro ⟨h1, _⟩
  have := char_le_toNat h.2
  have := char_le_toNat h1
  have hZ : 'Z'.toNat = 90 := by decide
  have ha : 'a'.toNat = 97 := by decide
  omega

lemma not_upper_of_lower {c : Char} (h : 'a' ≤ c ∧ c ≤ 'z') : ¬('A' ≤ c ∧ c ≤ 'Z') := by
  rintro ⟨_, h2⟩
  have := char_le_toNat h.1
  have := char_le_toNat h2
  have hZ : 'Z'.toNat = 90 := by decide
  have ha : 'a'.toNat = 97 := by decide
  omega

lemma stepDir_spec {m : Pos → Option Char} {fk : List (Key × Pos)} {p : Pos}
    {mask n : Nat} {st st' : BfsState} {d : Pos}
    (h : stepDir m fk p mask n st d = .ok st') :
    (st' = st ∧ (m (p.1 + d.1, p.2 + d.2) = none ∨
       posMem (p.1 + d.1, p.2 + d.2) st.visited = true)) ∨
    (∃ c, m (p.1 + d.1, p.2 + d.2) = some c ∧ okCell c ∧
      posMem (p.1 + d.1, p.2 + d.2) st.visited = false ∧
      st'.queue = st.queue ++ [((p.1 + d.1, p.2 + d.2), mask ||| doorBit fk c, n + 1)] ∧
      st'.visited = (p.1 + d.1, p.2 + d.2) :: st.visited ∧
      st'.edges = st.edges ++
        (if 'a' ≤ c ∧ c ≤ 'z' then
          [{ target_key := ⟨c⟩, steps := n + 1, needed_keys := mask ||| doorBit fk c }]
        else [])) := by
  unfold stepDir at h
  dsimp only at h
  split at h
  · rename_i hm
    cases h
    exact Or.inl ⟨rfl, Or.inl hm⟩
  · rename_i c hm
    split at h
    · cases h
    · rename_i nn fkey heq
      split at heq
      · rename_i hc
        simp only [Except.ok.injEq, Prod.mk.injEq] at heq
        obtain ⟨hnn, hfk2⟩ := heq
        subst hnn
        subst hfk2
        split at h
        · rename_i hvis
          cases h
          exact Or.inl ⟨rfl, Or.inr hvis⟩
        · rename_i hvis
          cases h
          right
          refine ⟨c, hm, Or.inl hc, by simpa using hvis, ?_, rfl, ?_⟩
          · have hd : (if containsKey ⟨Char.ofNat (c.toNat + 32)⟩ fk = true then
                mask ||| Key.bit_mask ⟨Char.ofNat (c.toNat + 32)⟩ else mask) =
                mask ||| doorBit fk c := by
              unfold doorBit
              rw [if_pos hc]
              split
              · rfl
              · rw [Nat.or_zero]
            rw [← hd]
          · show st.edges ++ [] = _
            rw [if_neg (not_lower_of_upper hc)]
      · split at heq
        · rename_i hc
          simp only [Except.ok.injEq, Prod.mk.injEq] at heq
          obtain ⟨hnn, hfk2⟩ := heq
          subst hnn
          subst hfk2
          split at h
          · rename_i hvis
            cases h
            exact Or.inl ⟨rfl, Or.inr hvis⟩
          · rename_i hvis
            cases h
            right
            have hd : doorBit fk c = 0 := by
              unfold doorBit
              rw [if_neg (not_upper_of_lower hc)]
            refine ⟨c, hm, Or.inr (Or.inl hc), by simpa using hvis, ?_, rfl, ?_⟩
            · rw [hd, Nat.or_zero]
            · show st.edges ++ [{ target_key := ⟨c⟩, steps := n + 1, needed_keys := mask }] = _
              rw [if_pos hc, hd, Nat.or_zero]
        · split at heq
          · rename_i hc
            simp only [Except.ok.injEq, Prod.mk.injEq] at heq
            obtain ⟨hnn, hfk2⟩ := heq
            subst hnn
            subst hfk2
            subst hc
            split at h
            · rename_i hvis
              cases h
              exact Or.inl ⟨rfl, Or.inr hvis⟩
            · rename_i hvis
              cases h
              right
              have hd : doorBit fk '.' = 0 := by
                unfold doorBit
                rw [if_neg (by decide)]
              refine ⟨'.', hm, Or.inr (Or.inr rfl), by simpa using hvis, ?_, rfl, ?_⟩
              · rw [hd, Nat.or_zero]
              · show st.edges ++ [] = _
                rw [if_neg (by decide)]
          · cases heq

lemma stepDir_total {m : Pos → Option Char} {fk : List (Key × Pos)}
    (hok : okMap m) (p : Pos) (mask n : Nat) (st : BfsState) (d : Pos) :
    ∃ st', stepDir m fk p mask n st d = .ok st' := by
  unfold stepDir
  dsimp only
  split
  · exact ⟨st, rfl⟩
  · rename_i c hm
    rcases hok _ _ hm with hc | hc | hc
    · rw [if_pos hc]
      dsimp only
      split
      · exact ⟨st, rfl⟩
      · exact ⟨_, rfl⟩
    · rw [if_neg (not_upper_of_lower hc), if_pos hc]
      dsimp only
      split
      · exact ⟨st, rfl⟩
      · exact ⟨_, rfl⟩
    · subst hc
      rw [if_neg (by decide), if_neg (by decide), if_pos rfl]
      dsimp only
      split
      · exact ⟨st, rfl⟩
      · exact ⟨_, rfl⟩

lemma stepDirList_total {m : Pos → Option Char} {fk : List (Key × Pos)}
    (hok : okMap m) (p : Pos) (mask n : Nat) :
    ∀ (ds : List Pos) (st : BfsState),
      ∃ st', stepDirList m fk p mask n ds st = .ok st' := by
  intro ds
  induction ds with
  | nil => intro st; exact ⟨st, rfl⟩
  | cons d ds ih =>
    intro st
    obtain ⟨st1, h1⟩ := stepDir_total hok p mask n st d
    obtain ⟨st2, h2⟩ := ih st1
    refine ⟨st2, ?_⟩
    unfold stepDirList
    rw [h1]
    exact h2

lemma posMem_iff (r : Pos) : ∀ l : List Pos, posMem r l = true ↔ r ∈ l := by
  intro l
  induction l with
  | nil => simp [posMem]
  | cons a l ih =>
    simp only [posMem, List.mem_cons]
    split
    · rename_i h
      simp [h.symm]
    · rename_i h
      rw [ih]
      constructor
      · exact Or.inr
      · rintro (h' | h')
        · exact absurd h'.symm h
        · exact h'

lemma midInv_push {m : Pos → Option Char} {fk : List (Key × Pos)} {src : Pos}
    {trace : List Pos} {p : Pos} {mask n : Nat} {preVisited : List Pos}
    {st st' : BfsState} {d : Pos} {c : Char}
    (hpw : Walk m fk src p n mask)
    (hfront : ∀ v ℓ mk, posMem v preVisited = false → Walk m fk src v ℓ mk → n + 1 ≤ ℓ)
    (hInv : BfsMidInv m fk src trace p n preVisited st)
    (hd : d ∈ DIRECTIONS)
    (hm : m (p.1 + d.1, p.2 + d.2) = some c)
    (hfresh : posMem (p.1 + d.1, p.2 + d.2) st.visited = false)
    (hq : st'.queue = st.queue ++ [((p.1 + d.1, p.2 + d.2), mask ||| doorBit fk c, n + 1)])
    (hv : st'.visited = (p.1 + d.1, p.2 + d.2) :: st.visited)
    (he : st'.edges = st.edges ++
      (if 'a' ≤ c ∧ c ≤ 'z' then
        [{ target_key := ⟨c⟩, steps := n + 1, needed_keys := mask ||| doorBit fk c }]
      else [])) :
    BfsMidInv m fk src trace p n preVisited st' := by
  have hnotin : ¬((p.1 + d.1, p.2 + d.2) ∈ trace ++ [p] ∨
      (p.1 + d.1, p.2 + d.2) ∈ st.queue.map (·.1)) := by
    rw [← hInv.vis_eq]
    simp [hfresh]
  have hpre : posMem (p.1 + d.1, p.2 + d.2) preVisited = false := by
    cases hb : posMem (p.1 + d.1, p.2 + d.2) preVisited with
    | false => rfl
    | true => exact absurd (hInv.mono _ hb) (by simp [hfresh])
  have hwalkq : Walk m fk src (p.1 + d.1, p.2 + d.2) (n + 1) (mask ||| doorBit fk c) :=
    Walk.cons hpw ⟨d, hd, rfl⟩ hm
  have hminq : ∀ ℓ mk, Walk m fk src (p.1 + d.1, p.2 + d.2) ℓ mk → n + 1 ≤ ℓ :=
    fun ℓ mk w => hfront _ ℓ mk hpre w
  have hmapq : st'.queue.map (·.1) = st.queue.map (·.1) ++ [(p.1 + d.1, p.2 + d.2)] := by
    rw [hq, List.map_append]
    rfl
  have hmapn : st'.queue.map (·.2.2) = st.queue.map (·.2.2) ++ [n + 1] := by
    rw [hq, List.map_append]
    rfl
  refine ⟨?_, ?_, ?_, ?_, ?_, ?_, ?_, ?_, ?_, ?_, ?_, ?_⟩
  · intro r
    have hold : r ∈ st.visited ↔ r ∈ trace ++ [p] ∨ r ∈ st.queue.map (·.1) := by
      rw [← posMem_iff r st.visited]
      exact hInv.vis_eq r
    rw [posMem_iff, hv, hmapq]
    constructor
    · intro h
      rcases List.mem_cons.mp h with rfl | hr
      · right
        rw [List.mem_append]
        right
        exact List.mem_singleton.mpr rfl
      · rcases hold.mp hr with h' | h'
        · exact Or.inl h'
        · right
          rw [List.mem_append]
          exact Or.inl h'
    · rintro (h | h)
      · exact List.mem_cons_of_mem _ (hold.mpr (Or.inl h))
      · rw [List.mem_append] at h
        rcases h with h | h
        · exact List.mem_cons_of_mem _ (hold.mpr (Or.inr h))
        · rw [List.mem_singleton] at h
          rw [h]
          exact List.mem_cons_self _ _
  · rw [hmapq, ← List.append_assoc, List.nodup_append]
    refine ⟨hInv.nodup, List.nodup_singleton _, ?_⟩
    intro a ha hb
    rw [List.mem_singleton] at hb
    subst hb
    exact hnotin (List.mem_append.mp ha)
  · intro r hr
    rw [posMem_iff, hv, List.mem_cons] at hr
    rcases hr with rfl | hr
    · right
      simp [hm]
    · exact hInv.vis_dom r ((posMem_iff r st.visited).mpr hr)
  · rw [posMem_iff, hv]
    exact List.mem_cons_of_mem _ ((posMem_iff src st.visited).mp hInv.src_vis)
  · rw [hmapn, List.pairwise_append]
    refine ⟨hInv.sorted, List.pairwise_singleton _ _, ?_⟩
    intro a ha b hb
    rw [List.mem_singleton] at hb
    subst hb
    exact hInv.hi a ha
  · intro a ha
    rw [hmapn, List.mem_append] at ha
    rcases ha with ha | ha
    · exact hInv.lo a ha
    · rw [List.mem_singleton] at ha
      subst ha
      omega
  · intro a ha
    rw [hmapn, List.mem_append] at ha
    rcases ha with ha | ha
    · exact hInv.hi a ha
    · rw [List.mem_singleton] at ha
      subst ha
      exact le_refl _
  · intro q hq'
    rw [hq, List.mem_append] at hq'
    rcases hq' with hq' | hq'
    · exact hInv.qwalk q hq'
    · rw [List.mem_singleton] at hq'
      subst hq'
      exact ⟨hwalkq, hminq⟩
  · intro r hr
    rw [posMem_iff, hv]
    exact List.mem_cons_of_mem _ ((posMem_iff r st.visited).mp (hInv.mono r hr))
  · intro r hr q' c' hadj hc'
    rw [posMem_iff, hv]
    exact List.mem_cons_of_mem _
      ((posMem_iff q' st.visited).mp (hInv.closure_old r hr q' c' hadj hc'))
  · intro e he'
    rw [he, List.mem_append] at he'
    rcases he' with he' | he'
    · exact hInv.edges_ok e he'
    · split at he'
      · rename_i hcz
        rw [List.mem_singleton] at he'
        subst he'
        exact ⟨_, c, hm, hcz.1, hcz.2, rfl, hwalkq, hminq⟩
      · cases he'
  · intro q hqv hqs c' hc' h1 h2
    rw [posMem_iff, hv, List.mem_cons] at hqv
    rcases hqv with rfl | hqv
    · have hcc : c' = c := by
        rw [hm] at hc'
        exact (Option.some.injEq _ _).mp hc'.symm
      subst hcc
      refine ⟨(⟨⟨c'⟩, n + 1, mask ||| doorBit fk c'⟩ : Edge), ?_, rfl, hwalkq, hminq⟩
      rw [he, List.mem_append]
      right
      rw [if_pos ⟨h1, h2⟩]
      exact List.mem_singleton.mpr rfl
    · obtain ⟨e, he2, h3, h4, h5⟩ :=
        hInv.keys_ok q ((posMem_iff q st.visited).mpr hqv) hqs c' hc' h1 h2
      exact ⟨e, by rw [he, List.mem_append]; exact Or.inl he2, h3, h4, h5⟩

lemma stepDirList_pres {m : Pos → Option Char} {fk : List (Key × Pos)} {src : Pos}
    {trace : List Pos} {p : Pos} {mask n : Nat} {preVisited : List Pos}
    (hpw : Walk m fk src p n mask)
    (hfront : ∀ v ℓ mk, posMem v preVisited = false → Walk m fk src v ℓ mk → n + 1 ≤ ℓ) :
    ∀ (ds : List Pos) (st stF : BfsState), (∀ d ∈ ds, d ∈ DIRECTIONS) →
      BfsMidInv m fk src trace p n preVisited st →
      stepDirList m fk p mask n ds st = .ok stF →
      BfsMidInv m fk src trace p n preVisited stF ∧
      (∀ r, posMem r st.visited = true → posMem r stF.visited = true) ∧
      (∀ d ∈ ds, ∀ c, m (p.1 + d.1, p.2 + d.2) = some c →
        posMem (p.1 + d.1, p.2 + d.2) stF.visited = true) := by
  intro ds
  induction ds with
  | nil =>
    intro st stF hds hInv h
    cases h
    exact ⟨hInv, fun r hr => hr, fun d hd => absurd hd (List.not_mem_nil d)⟩
  | cons d ds ih =>
    intro st stF hds hInv h
    unfold stepDirList at h
    split at h
    · cases h
    · rename_i st1 heq
      have hd : d ∈ DIRECTIONS := hds d (List.mem_cons_self _ _)
      rcases stepDir_spec heq with ⟨heq1, hcase⟩ | ⟨c, hm, hok, hfresh, hq, hv, he⟩
      · subst heq1
        obtain ⟨hF, hmono, hdirs⟩ :=
          ih st1 stF (fun d' hd' => hds d' (List.mem_cons_of_mem _ hd')) hInv h
        refine ⟨hF, hmono, ?_⟩
        intro d' hd' c hm
        rcases List.mem_cons.mp hd' with rfl | hd'
        · rcases hcase with hnone | hvis
          · rw [hm] at hnone
            cases hnone
          · exact hmono _ hvis
        · exact hdirs d' hd' c hm
      · have hInv1 := midInv_push hpw hfront hInv hd hm hfresh hq hv he
        obtain ⟨hF, hmono, hdirs⟩ :=
          ih st1 stF (fun d' hd' => hds d' (List.mem_cons_of_mem _ hd')) hInv1 h
        have hmono' : ∀ r, posMem r st.visited = true → posMem r stF.visited = true := by
          intro r hr
          apply hmono
          rw [posMem_iff, hv]
          exact List.mem_cons_of_mem _ ((posMem_iff r st.visited).mp hr)
        refine ⟨hF, hmono', ?_⟩
        intro d' hd' c' hm'
        rcases List.mem_cons.mp hd' with rfl | hd'
        · apply hmono
          rw [posMem_iff, hv]
          exact List.mem_cons_self _ _
        · exact hdirs d' hd' c' hm'

lemma frontier_bound {m : Pos → Option Char} {fk : List (Key × Pos)} {src : Pos}
    {st : BfsState} {trace : List Pos} {p : Pos} {mask n : Nat}
    {rest : List (Pos × Nat × Nat)}
    (hInv : BfsInvariant m fk src st trace) (hq : st.queue = (p, mask, n) :: rest) :
    ∀ (ℓ : Nat) (v : Pos) (mk : Nat), posMem v st.visited = false →
      Walk m fk src v ℓ mk → n + 1 ≤ ℓ := by
  intro ℓ
  induction ℓ with
  | zero =>
    intro v mk hfresh w
    cases w
    exact absurd hInv.src_vis (by simp [hfresh])
  | succ ℓ ih =>
    intro v mk hfresh w
    cases w with
    | cons w' hadj hc =>
      rename_i u mask0 c0
      cases hb : posMem u st.visited with
      | false =>
        have := ih u _ hb w'
        omega
      | true =>
        rcases (hInv.vis_eq u).mp hb with hu | hu
        · have := hInv.closure u hu v _ hadj hc
          exact absurd this (by simp [hfresh])
        · rw [List.mem_map] at hu
          obtain ⟨entry, hent, hfst⟩ := hu
          have hmin := (hInv.qwalk entry hent).2 ℓ mask0 (by rw [hfst]; exact w')
          have hn : n ≤ entry.2.2 := by
            have hsor := hInv.sorted
            rw [hq] at hent hsor
            rcases List.mem_cons.mp hent with rfl | hent'
            · exact le_refl _
            · have hmm : entry.2.2 ∈ rest.map (·.2.2) := List.mem_map_of_mem _ hent'
              exact (List.pairwise_cons.mp (by simpa using hsor)).1 _ hmm
          omega

lemma inv_pop {m : Pos → Option Char} {fk : List (Key × Pos)} {src : Pos}
    {st stF : BfsState} {trace : List Pos} {p : Pos} {mask n : Nat}
    {rest : List (Pos × Nat × Nat)}
    (hInv : BfsInvariant m fk src st trace) (hq : st.queue = (p, mask, n) :: rest)
    (h : stepDirList m fk p mask n DIRECTIONS { st with queue := rest } = .ok stF) :
    BfsInvariant m fk src stF (trace ++ [p]) := by
  have hent : ((p, mask, n) : Pos × Nat × Nat) ∈ st.queue := by
    rw [hq]
    exact List.mem_cons_self _ _
  have hpw : Walk m fk src p n mask := (hInv.qwalk _ hent).1
  have hfront := frontier_bound hInv hq
  have hMid : BfsMidInv m fk src trace p n st.visited { st with queue := rest } := by
    refine ⟨?_, ?_, hInv.vis_dom, hInv.src_vis, ?_, ?_, ?_, ?_, fun r hr => hr, ?_,
      hInv.edges_ok, hInv.keys_ok⟩
    · intro r
      rw [hInv.vis_eq r, hq]
      simp only [List.map_cons, List.mem_cons, List.mem_append, List.mem_singleton]
      tauto
    · have hnd := hInv.nodup
      rw [hq] at hnd
      simp only [List.map_cons] at hnd
      rw [List.append_assoc]
      exact hnd
    · have hsor := hInv.sorted
      rw [hq] at hsor
      simp only [List.map_cons] at hsor
      exact (List.pairwise_cons.mp hsor).2
    · intro a ha
      have hsor := hInv.sorted
      rw [hq] at hsor
      simp only [List.map_cons] at hsor
      exact (List.pairwise_cons.mp hsor).1 a ha
    · intro a ha
      obtain ⟨F, hF⟩ := hInv.band
      have h1 : F ≤ n ∧ n ≤ F + 1 := by
        apply hF
        rw [hq]
        simp
      have h2 : F ≤ a ∧ a ≤ F + 1 := by
        apply hF
        rw [hq]
        simp only [List.map_cons, List.mem_cons]
        exact Or.inr ha
      omega
    · intro q hq'
      apply hInv.qwalk
      rw [hq]
      exact List.mem_cons_of_mem _ hq'
    · intro r hr q' c' hadj hc'
      exact hInv.closure r hr q' c' hadj hc'
  obtain ⟨hF, hmono, hdirs⟩ :=
    stepDirList_pres hpw (fun v ℓ mk hv hw => hfront ℓ v mk hv hw) DIRECTIONS _ stF
      (fun d hd => hd) hMid h
  refine ⟨hF.vis_eq, hF.nodup, hF.vis_dom, hF.src_vis, hF.sorted, ⟨n, fun a ha =>
    ⟨hF.lo a ha, hF.hi a ha⟩⟩, hF.qwalk, ?_, hF.edges_ok, hF.keys_ok⟩
  intro r hr q' c' hadj hc'
  rw [List.mem_append, List.mem_singleton] at hr
  rcases hr with hr | rfl
  · exact hF.closure_old r hr q' c' hadj hc'
  · obtain ⟨d, hd, rfl⟩ := hadj
    exact hdirs d hd c' hc'

lemma inv_final {m : Pos → Option Char} {fk : List (Key × Pos)} {src : Pos}
    {st : BfsState} {trace : List Pos}
    (hInv : BfsInvariant m fk src st trace) (hq : st.queue = []) :
    trace.Nodup ∧
    (∀ e ∈ st.edges, EdgeSpec m fk src e) ∧
    (∀ q ℓ mk, Walk m fk src q ℓ mk → q ∈ trace) ∧
    (∀ q, q ∈ trace → q ≠ src → ∀ c, m q = some c → 'a' ≤ c → c ≤ 'z' →
      ∃ e ∈ st.edges, e.target_key = ⟨c⟩ ∧ Walk m fk src q e.steps e.needed_keys ∧
        ∀ ℓ mk, Walk m fk src q ℓ mk → e.steps ≤ ℓ) := by
  have hvT : ∀ r, posMem r st.visited = true ↔ r ∈ trace := by
    intro r
    rw [hInv.vis_eq, hq]
    simp
  refine ⟨?_, hInv.edges_ok, ?_, ?_⟩
  · have := hInv.nodup
    rw [hq] at this
    simpa using this
  · intro q ℓ mk w
    induction w with
    | nil => exact (hvT src).mp hInv.src_vis
    | cons w' hadj hc ihw =>
      rename_i u mask0 c0
      exact (hvT _).mp (hInv.closure _ ihw _ _ hadj hc)
  · intro q hqT hqs c hc h1 h2
    exact hInv.keys_ok q ((hvT q).mpr hqT) hqs c hc h1 h2

lemma bfsLoopTrace_ok {m : Pos → Option Char} {fk : List (Key × Pos)} {src : Pos} :
    ∀ (fuel : Nat) (st : BfsState) (trace : List Pos) (es : List Edge) (T : List Pos),
      BfsInvariant m fk src st trace →
      bfsLoopTrace m fk fuel st trace = (.ok es, T) →
      T.Nodup ∧
      (∀ e ∈ es, EdgeSpec m fk src e) ∧
      (∀ q ℓ mk, Walk m fk src q ℓ mk → q ∈ T) ∧
      (∀ q, q ∈ T → q ≠ src → ∀ c, m q = some c → 'a' ≤ c → c ≤ 'z' →
        ∃ e ∈ es, e.target_key = ⟨c⟩ ∧ Walk m fk src q e.steps e.needed_keys ∧
          ∀ ℓ mk, Walk m fk src q ℓ mk → e.steps ≤ ℓ) := by
  intro fuel
  induction fuel with
  | zero =>
    intro st trace es T hInv h
    unfold bfsLoopTrace at h
    split at h
    · rename_i hq
      simp only [Prod.mk.injEq, Except.ok.injEq] at h
      obtain ⟨rfl, rfl⟩ := h
      exact inv_final hInv hq
    · simp at h
  | succ fuel ih =>
    intro st trace es T hInv h
    unfold bfsLoopTrace at h
    split at h
    · rename_i hq
      simp only [Prod.mk.injEq, Except.ok.injEq] at h
      obtain ⟨rfl, rfl⟩ := h
      exact inv_final hInv hq
    · rename_i position needed_keys steps rest hq
      split at h
      · simp at h
      · rename_i fuel' heqf
        obtain rfl : fuel' = fuel := by omega
        split at h
        · simp at h
        · rename_i st1 heq
          exact ih st1 (trace ++ [position]) es T (inv_pop hInv hq heq) h

lemma inv_initial (m : Pos → Option Char) (fk : List (Key × Pos)) (src : Pos) :
    BfsInvariant m fk src { queue := [(src, 0, 0)], visited := [src], edges := [] } [] := by
  refine ⟨?_, ?_, ?_, ?_, ?_, ⟨0, ?_⟩, ?_, ?_, ?_, ?_⟩
  · intro r
    simp [posMem_iff]
  · simp
  · intro r hr
    rw [posMem_iff] at hr
    rcases List.mem_singleton.mp hr with rfl
    exact Or.inl rfl
  · rw [posMem_iff]
    exact List.mem_singleton.mpr rfl
  · simp
  · intro a ha
    simp only [List.map_cons, List.map_nil, List.mem_singleton] at ha
    subst ha
    omega
  · intro q hq
    rcases List.mem_singleton.mp hq with rfl
    exact ⟨Walk.nil, fun ℓ mk _ => Nat.zero_le ℓ⟩
  · intro r hr
    cases hr
  · intro e he
    cases he
  · intro q hqv hqs c hc h1 h2
    rw [posMem_iff] at hqv
    rcases List.mem_singleton.mp hqv with rfl
    exact absurd rfl hqs

lemma stepDirList_measure {m : Pos → Option Char} {fk : List (Key × Pos)} {p : Pos}
    {mask n : Nat} {A : List Pos} (hdom : ∀ r c, m r = some c → r ∈ A) :
    ∀ (ds : List Pos) (st stF : BfsState),
      stepDirList m fk p mask n ds st = Except.ok stF →
      st.visited.Nodup →
      stF.visited.Nodup ∧
      (∀ r ∈ stF.visited, r ∈ st.visited ∨ r ∈ A) ∧
      stF.queue.length + st.visited.length = st.queue.length + stF.visited.length := by
  intro ds
  induction ds with
  | nil =>
    intro st stF h hnd
    have h' : Except.ok st = Except.ok stF := h
    cases h'
    exact ⟨hnd, fun r hr => Or.inl hr, rfl⟩
  | cons d ds ih =>
    intro st stF h hnd
    unfold stepDirList at h
    split at h
    · cases h
    · rename_i st1 heq
      rcases stepDir_spec heq with ⟨heq1, _⟩ | ⟨c, hm, _, hfresh, hq1, hv1, _⟩
      · subst heq1
        exact ih st1 stF h hnd
      · have hfresh' : (p.1 + d.1, p.2 + d.2) ∉ st.visited := by
          rw [← posMem_iff]
          simp [hfresh]
        have hnd1 : st1.visited.Nodup := by
          rw [hv1]
          exact List.nodup_cons.mpr ⟨hfresh', hnd⟩
        obtain ⟨h1, h2, h3⟩ := ih st1 stF h hnd1
        refine ⟨h1, ?_, ?_⟩
        · intro r hr
          rcases h2 r hr with hr' | hr'
          · rw [hv1] at hr'
            rcases List.mem_cons.mp hr' with rfl | hr''
            · exact Or.inr (hdom _ _ hm)
            · exact Or.inl hr''
          · exact Or.inr hr'
        · have hlq : st1.queue.length = st.queue.length + 1 := by
            rw [hq1]
            simp
          have hlv : st1.visited.length = st.visited.length + 1 := by
            rw [hv1]
            rfl
          omega

lemma bfsLoopTrace_total {m : Pos → Option Char} {fk : List (Key × Pos)}
    (hok : okMap m) {A B : List Pos}
    (hdom : ∀ r c, m r = some c → r ∈ A) (hAB : ∀ r ∈ A, r ∈ B) :
    ∀ (fuel : Nat) (st : BfsState) (trace : List Pos),
      st.visited.Nodup →
      (∀ r ∈ st.visited, r ∈ B) →
      st.queue.length + B.length + 1 ≤ fuel + st.visited.length →
      ∃ es T, bfsLoopTrace m fk fuel st trace = (Except.ok es, T) := by
  intro fuel
  induction fuel with
  | zero =>
    intro st trace hnd hsub hlen
    exfalso
    have hvB : st.visited.length ≤ B.length :=
      (List.subperm_of_subset hnd fun r hr => hsub r hr).length_le
    omega
  | succ fuel ih =>
    intro st trace hnd hsub hlen
    cases hq : st.queue with
    | nil =>
      refine ⟨st.edges, trace, ?_⟩
      unfold bfsLoopTrace
      simp only [hq]
    | cons entry rest =>
      obtain ⟨p, mask, n⟩ := entry
      obtain ⟨st1, heq⟩ := stepDirList_total hok p mask n DIRECTIONS { st with queue := rest }
      have hnd' : ({ st with queue := rest } : BfsState).visited.Nodup := hnd
      obtain ⟨hnd1, hsub1, hlen1⟩ := stepDirList_measure hdom DIRECTIONS _ st1 heq hnd'
      have hsub1' : ∀ r ∈ st1.visited, r ∈ B := by
        intro r hr
        rcases hsub1 r hr with h | h
        · exact hsub r h
        · exact hAB r h
      have hlen1' : st1.queue.length + st.visited.length = rest.length + st1.visited.length :=
        hlen1
      have hql : st.queue.length = rest.length + 1 := by
        rw [hq]
        rfl
      have hlen' : st1.queue.length + B.length + 1 ≤ fuel + st1.visited.length := by omega
      obtain ⟨es, T, hrec⟩ := ih st1 (trace ++ [p]) hnd1 hsub1' hlen'
      refine ⟨es, T, ?_⟩
      unfold bfsLoopTrace
      simp only [hq]
      rw [heq]
      exact hrec

lemma okMap_mapAt {lines : List (List Char)} (hval : ValidGrid lines) :
    okMap (mapAt lines) := by
  intro p c hm
  unfold mapAt at hm
  cases hc : cellAt lines p with
  | none =>
    rw [hc] at hm
    simp at hm
  | some c0 =>
    rw [hc] at hm
    have hm' : charForMap c0 = some c := hm
    have hv : validChar c0 := by
      unfold cellAt at hc
      split at hc
      · cases hrow : lines.get? p.2.toNat with
        | none =>
          rw [hrow] at hc
          simp at hc
        | some row =>
          rw [hrow] at hc
          have hcol : row.get? p.1.toNat = some c0 := hc
          exact hval row (List.get?_mem hrow) c0 (List.get?_mem hcol)
      · cases hc
    unfold charForMap at hm'
    split at hm'
    · injection hm' with hm''
      subst hm''
      exact Or.inr (Or.inr rfl)
    · split at hm'
      · exact Option.noConfusion hm'
      · rename_i hat hhash
        injection hm' with hm''
        subst hm''
        rcases hv with h | h | h | h | h
        · exact absurd h hhash
        · exact Or.inr (Or.inr h)
        · exact absurd h hat
        · exact Or.inr (Or.inl h)
        · exact Or.inl h

lemma rowCells_mem (y : Nat) :
    ∀ (cs : List Char) (x0 x : Nat) (c : Char), cs.get? x = some c →
      (((x0 + x : Nat) : Int), (y : Int)) ∈ rowCells y x0 cs := by
  intro cs
  induction cs with
  | nil =>
    intro x0 x c h
    cases h
  | cons c0 cs ih =>
    intro x0 x c h
    cases x with
    | zero =>
      exact List.mem_cons_self _ _
    | succ x =>
      have h' : cs.get? x = some c := h
      have hmem := ih (x0 + 1) x c h'
      have hx : x0 + 1 + x = x0 + (x + 1) := by omega
      rw [hx] at hmem
      exact List.mem_cons_of_mem _ hmem

lemma gridCells_mem :
    ∀ (lines : List (List Char)) (y0 y : Nat) (row : List Char) (x : Nat) (c : Char),
      lines.get? y = some row → row.get? x = some c →
      (((x : Nat) : Int), ((y0 + y : Nat) : Int)) ∈ gridCells y0 lines := by
  intro lines
  induction lines with
  | nil =>
    intro y0 y row x c h _
    cases h
  | cons r rs ih =>
    intro y0 y row x c h hx
    rw [show gridCells y0 (r :: rs) = rowCells y0 0 r ++ gridCells (y0 + 1) rs from rfl]
    cases y with
    | zero =>
      have hr : some r = some row := h
      injection hr with hr
      subst hr
      apply List.mem_append.mpr
      left
      have hmem := rowCells_mem y0 r 0 x c hx
      rw [Nat.zero_add] at hmem
      exact hmem
    | succ y =>
      have h' : rs.get? y = some row := h
      have hmem := ih (y0 + 1) y row x c h' hx
      have hy : y0 + 1 + y = y0 + (y + 1) := by omega
      rw [hy] at hmem
      exact List.mem_append.mpr (Or.inr hmem)

lemma mapAt_mem_gridCells {lines : List (List Char)} {p : Pos} {c : Char}
    (h : mapAt lines p = some c) : p ∈ gridCells 0 lines := by
  unfold mapAt at h
  cases hc : cellAt lines p with
  | none =>
    rw [hc] at h
    simp at h
  | some c0 =>
    clear h
    unfold cellAt at hc
    split at hc
    · rename_i hpos
      cases hrow : lines.get? p.2.toNat with
      | none =>
        rw [hrow] at hc
        simp at hc
      | some row =>
        rw [hrow] at hc
        have hcol : row.get? p.1.toNat = some c0 := hc
        have hmem := gridCells_mem lines 0 p.2.toNat row p.1.toNat c0 hrow hcol
        have h1 : ((p.1.toNat : Int)) = p.1 := Int.toNat_of_nonneg hpos.1
        have h2 : ((p.2.toNat : Int)) = p.2 := Int.toNat_of_nonneg hpos.2
        rw [Nat.zero_add, h1, h2] at hmem
        exact hmem
    · cases hc

lemma rowCells_length (y : Nat) :
    ∀ (cs : List Char) (x0 : Nat), (rowCells y x0 cs).length = cs.length := by
  intro cs
  induction cs with
  | nil => intro x0; rfl
  | cons c cs ih =>
    intro x0
    rw [show rowCells y x0 (c :: cs) = ((x0 : Int), (y : Int)) :: rowCells y (x0 + 1) cs
      from rfl]
    rw [List.length_cons, ih (x0 + 1), List.length_cons]

lemma gridCells_length :
    ∀ (lines : List (List Char)) (y0 : Nat),
      (gridCells y0 lines).length = lines.foldr (fun r a => r.length + a) 0 := by
  intro lines
  induction lines with
  | nil => intro y0; rfl
  | cons r rs ih =>
    intro y0
    rw [show gridCells y0 (r :: rs) = rowCells y0 0 r ++ gridCells (y0 + 1) rs from rfl]
    rw [List.length_append, rowCells_length y0 r 0, ih (y0 + 1)]
    rfl

lemma findEdges_grid_spec {lines : List (List Char)} (hval : ValidGrid lines) (src : Pos) :
    ∃ es T,
      bfsLoopTrace (mapAt lines) (foundKeys lines) (totalCellsFuel lines)
        { queue := [(src, 0, 0)], visited := [src], edges := [] } [] =
          (Except.ok es, T) ∧
      findEdgesFrom (mapAt lines) (foundKeys lines) (totalCellsFuel lines) src =
        Except.ok es ∧
      ReducerSpec lines src es T := by
  have hok := okMap_mapAt hval
  obtain ⟨es, T, htr⟩ :=
    @bfsLoopTrace_total (mapAt lines) (foundKeys lines) hok (gridCells 0 lines)
      (src :: gridCells 0 lines)
      (fun r c h => mapAt_mem_gridCells h)
      (fun r hr => List.mem_cons_of_mem src hr)
      (totalCellsFuel lines)
      { queue := [(src, 0, 0)], visited := [src], edges := [] } []
      (List.nodup_singleton src)
      (by
        intro r hr
        rcases List.mem_singleton.mp hr with rfl
        exact List.mem_cons_self _ _)
      (by
        show 1 + (src :: gridCells 0 lines).length + 1 ≤ totalCellsFuel lines + 1
        rw [List.length_cons, gridCells_length lines 0]
        unfold totalCellsFuel
        omega)
  obtain ⟨h1, h2, h3, h4⟩ :=
    bfsLoopTrace_ok (totalCellsFuel lines) _ [] es T (inv_initial _ _ src) htr
  refine ⟨es, T, htr, ?_, h1, h2, h3, h4⟩
  unfold findEdgesFrom
  rw [← bfsLoopTrace_fst (totalCellsFuel lines)
    { queue := [(src, 0, 0)], visited := [src], edges := [] } [], htr]

lemma insertKey_keys_mem (k : Key) (p : Pos) :
    ∀ (acc : List (Key × Pos)) (k' : Key),
      k' ∈ (insertKey k p acc).map (·.1) ↔ k' = k ∨ k' ∈ acc.map (·.1) := by
  intro acc
  induction acc with
  | nil =>
    intro k'
    simp [insertKey]
  | cons kp rest ih =>
    intro k'
    obtain ⟨k0, p0⟩ := kp
    unfold insertKey
    split
    · rename_i heq
      subst heq
      simp only [List.map_cons, List.mem_cons]
      tauto
    · rename_i hne
      simp only [List.map_cons, List.mem_cons, ih]
      tauto

lemma insertKey_keys_nodup (k : Key) (p : Pos) :
    ∀ (acc : List (Key × Pos)),
      (acc.map (·.1)).Nodup → ((insertKey k p acc).map (·.1)).Nodup := by
  intro acc
  induction acc with
  | nil =>
    intro _
    simp [insertKey]
  | cons kp rest ih =>
    intro hnd
    obtain ⟨k0, p0⟩ := kp
    simp only [List.map_cons, List.nodup_cons] at hnd
    obtain ⟨hk0, hrest⟩ := hnd
    unfold insertKey
    split
    · rename_i heq
      subst heq
      simp only [List.map_cons, List.nodup_cons]
      exact ⟨hk0, hrest⟩
    · rename_i hne
      simp only [List.map_cons, List.nodup_cons]
      refine ⟨?_, ih hrest⟩
      rw [insertKey_keys_mem]
      rintro (rfl | hmem)
      · exact hne rfl
      · exact hk0 hmem

lemma scanRowKeys_keys_nodup (y : Nat) :
    ∀ (cs : List Char) (x : Nat) (acc : List (Key × Pos)),
      (acc.map (·.1)).Nodup → ((scanRowKeys y x cs acc).map (·.1)).Nodup := by
  intro cs
  induction cs with
  | nil =>
    intro x acc h
    exact h
  | cons c cs ih =>
    intro x acc h
    unfold scanRowKeys
    apply ih
    split
    · exact insertKey_keys_nodup _ _ _ h
    · split
      · exact insertKey_keys_nodup _ _ _ h
      · exact h

lemma scanKeys_keys_nodup :
    ∀ (lines : List (List Char)) (y : Nat) (acc : List (Key × Pos)),
      (acc.map (·.1)).Nodup → ((scanKeys y lines acc).map (·.1)).Nodup := by
  intro lines
  induction lines with
  | nil =>
    intro y acc h
    exact h
  | cons row rows ih =>
    intro y acc h
    unfold scanKeys
    exact ih _ _ (scanRowKeys_keys_nodup y row 0 acc h)

lemma foundKeys_keys_nodup (lines : List (List Char)) :
    ((foundKeys lines).map (·.1)).Nodup :=
  scanKeys_keys_nodup lines 0 [] (by simp)

lemma buildAdjacencyAux_keys {m : Pos → Option Char} {fk : List (Key × Pos)} {fuel : Nat} :
    ∀ {srcs : List (Key × Pos)} {adj : List (Key × List Edge)},
      buildAdjacencyAux m fk fuel srcs = Except.ok adj →
      ∀ ke ∈ adj, ke.1 ∈ srcs.map (·.1) := by
  intro srcs
  induction srcs with
  | nil =>
    intro adj h ke hke
    have h' : (Except.ok [] : Except RunError (List (Key × List Edge))) = Except.ok adj := h
    cases h'
    cases hke
  | cons kp rest ih =>
    intro adj h ke hke
    obtain ⟨k0, p0⟩ := kp
    unfold buildAdjacencyAux at h
    split at h
    · cases h
    · rename_i es0 hes0
      split at h
      · cases h
      · rename_i adj' hadj'
        cases h
        simp only [List.map_cons, List.mem_cons]
        split at hke
        · exact Or.inr (ih hadj' ke hke)
        · rcases List.mem_cons.mp hke with rfl | hke'
          · exact Or.inl rfl
          · exact Or.inr (ih hadj' ke hke')

lemma adjGet_eq_none {k : Key} :
    ∀ {adj : List (Key × List Edge)}, (∀ ke ∈ adj, ke.1 ≠ k) → adjGet k adj = none := by
  intro adj
  induction adj with
  | nil =>
    intro _
    rfl
  | cons ke rest ih =>
    intro h
    obtain ⟨k0, es⟩ := ke
    unfold adjGet
    rw [if_neg (h (k0, es) (List.mem_cons_self _ _))]
    exact ih fun ke' hke' => h ke' (List.mem_cons_of_mem _ hke')

lemma buildAdjacencyAux_get {m : Pos → Option Char} {fk : List (Key × Pos)} {fuel : Nat} :
    ∀ {srcs : List (Key × Pos)} {adj : List (Key × List Edge)} (k : Key) (p : Pos),
      buildAdjacencyAux m fk fuel srcs = Except.ok adj →
      (srcs.map (·.1)).Nodup → (k, p) ∈ srcs →
      ∃ es, findEdgesFrom m fk fuel p = Except.ok es ∧
        adjGet k adj = if es.isEmpty then none else some es := by
  intro srcs
  induction srcs with
  | nil =>
    intro adj k p h hnd hmem
    cases hmem
  | cons kp rest ih =>
    intro adj k p h hnd hmem
    obtain ⟨k0, p0⟩ := kp
    unfold buildAdjacencyAux at h
    split at h
    · cases h
    · rename_i es0 hes0
      split at h
      · cases h
      · rename_i adj' hadj'
        cases h
        simp only [List.map_cons, List.nodup_cons] at hnd
        obtain ⟨hk0nin, hndrest⟩ := hnd
        rcases List.mem_cons.mp hmem with heq | hmem'
        · injection heq with hk hp
          subst hk
          subst hp
          refine ⟨es0, hes0, ?_⟩
          have hnone : adjGet k adj' = none := by
            apply adjGet_eq_none
            intro ke hke hkeq
            exact hk0nin (hkeq ▸ buildAdjacencyAux_keys hadj' ke hke)
          cases hemp : es0.isEmpty with
          | true =>
            show adjGet k adj' = none
            exact hnone
          | false =>
            show adjGet k ((k, es0) :: adj') = some es0
            unfold adjGet
            rw [if_pos rfl]
        · have hkne : k ≠ k0 := by
            intro hkk
            apply hk0nin
            rw [← hkk]
            exact List.mem_map_of_mem _ hmem'
          obtain ⟨es, hes, hget⟩ := ih k p hadj' hndrest hmem'
          refine ⟨es, hes, ?_⟩
          rw [← hget]
          cases hemp : es0.isEmpty with
          | true => rfl
          | false =>
            show (if k0 = k then some es0 else adjGet k adj') = adjGet k adj'
            rw [if_neg fun h' => hkne h'.symm]

/-- Claim C5: for every valid grid and every source position, the reducer's
BFS dequeues each physical grid position at most once, and for every key cell
reachable from the source it records an edge whose step count is the exact
shortest walk distance from the source to that key, annotated with the door
mask of such a shortest route; conversely every recorded edge is faithful to
a shortest route (`ReducerSpec`).  `bfsLoopTrace` is the BFS loop
instrumented with its dequeue trace; its result column is `bfsLoop`, so `es`
is also what `findEdgesFrom` returns, and the supplied fuel suffices. -/
theorem claim_C5 (lines : List (List Char)) (hval : ValidGrid lines) (src : Pos) :
    ∃ es T,
      bfsLoopTrace (mapAt lines) (foundKeys lines) (totalCellsFuel lines)
        { queue := [(src, 0, 0)], visited := [src], edges := [] } [] =
          (Except.ok es, T) ∧
      findEdgesFrom (mapAt lines) (foundKeys lines) (totalCellsFuel lines) src =
        Except.ok es ∧
      ReducerSpec lines src es T :=
  findEdges_grid_spec hval src

/-- Witness for C5: the first example grid with its start cell as source. -/
theorem claim_C5_witness :
    ValidGrid exampleGrid1 ∧
    ∃ es T,
      bfsLoopTrace (mapAt exampleGrid1) (foundKeys exampleGrid1)
        (totalCellsFuel exampleGrid1)
        { queue := [((((5 : Int), (1 : Int)) : Pos), 0, 0)],
          visited := [(((5 : Int), (1 : Int)) : Pos)], edges := [] } [] =
          (Except.ok es, T) ∧
      findEdgesFrom (mapAt exampleGrid1) (foundKeys exampleGrid1)
        (totalCellsFuel exampleGrid1) ((5 : Int), (1 : Int)) = Except.ok es ∧
      ReducerSpec exampleGrid1 ((5 : Int), (1 : Int)) es T :=
  ⟨by decide, claim_C5 exampleGrid1 (by decide) ((5 : Int), (1 : Int))⟩

/-- Claim C6 (amended): for every entry `(k, p)` of the found-keys map of a
valid grid, the reducer's adjacency mapping gives `k` an edge to every key
cell reachable from `p` through stored cells — BFS traversal continues
through key cells, so a key lying beyond another key still receives an
edge. -/
theorem claim_C6 (lines : List (List Char)) (hval : ValidGrid lines)
    (adj : List (Key × List Edge)) (hadj : buildAdjacency lines = Except.ok adj)
    (k : Key) (p : Pos) (hkp : (k, p) ∈ foundKeys lines)
    (q : Pos) (c : Char) (ℓ mk : Nat)
    (hw : Walk (mapAt lines) (foundKeys lines) p q ℓ mk) (hqp : q ≠ p)
    (hc : mapAt lines q = some c) (h1 : 'a' ≤ c) (h2 : c ≤ 'z') :
    ∃ es, adjGet k adj = some es ∧ ∃ e ∈ es, e.target_key = ⟨c⟩ := by
  obtain ⟨es0, T, htr, hfe, hRS⟩ := findEdges_grid_spec hval p
  unfold ReducerSpec at hRS
  obtain ⟨hndT, hspec, hcompl, hkeys⟩ := hRS
  have hqT : q ∈ T := hcompl q ℓ mk hw
  obtain ⟨e, he, htk, hwq, hmin⟩ := hkeys q hqT hqp c hc h1 h2
  have hne : es0.isEmpty = false := by
    cases es0 with
    | nil => cases he
    | cons a l => rfl
  unfold buildAdjacency at hadj
  obtain ⟨es1, hes1, hget⟩ :=
    buildAdjacencyAux_get k p hadj (foundKeys_keys_nodup lines) hkp
  have hes0 : es1 = es0 := by
    rw [hfe] at hes1
    injection hes1 with h'
    exact h'.symm
  subst hes0
  rw [hne] at hget
  refine ⟨es1, ?_, e, he, htk⟩
  exact hget

/-- Witness for C6: in the corridor `@ab`, key `b` lies strictly beyond key
`a`, yet the start's edge list contains an edge to `b`. -/
theorem claim_C6_witness :
    ValidGrid beyondKeyGrid ∧
    ((⟨'@'⟩ : Key), (((0 : Int), (0 : Int)) : Pos)) ∈ foundKeys beyondKeyGrid ∧
    Walk (mapAt beyondKeyGrid) (foundKeys beyondKeyGrid) ((0 : Int), (0 : Int))
      ((2 : Int), (0 : Int)) 2 0 ∧
    mapAt beyondKeyGrid ((2 : Int), (0 : Int)) = some 'b' ∧
    ∃ adj, buildAdjacency beyondKeyGrid = Except.ok adj ∧
      ∃ es, adjGet ⟨'@'⟩ adj = some es ∧ ∃ e ∈ es, e.target_key = ⟨'b'⟩ := by
  have hadj1 : Adjacent ((0 : Int), (0 : Int)) ((1 : Int), (0 : Int)) :=
    ⟨((1 : Int), (0 : Int)), by decide, by decide⟩
  have hadj2 : Adjacent ((1 : Int), (0 : Int)) ((2 : Int), (0 : Int)) :=
    ⟨((1 : Int), (0 : Int)), by decide, by decide⟩
  have hm1 : mapAt beyondKeyGrid ((1 : Int), (0 : Int)) = some 'a' := by decide
  have hm2 : mapAt beyondKeyGrid ((2 : Int), (0 : Int)) = some 'b' := by decide
  have hw : Walk (mapAt beyondKeyGrid) (foundKeys beyondKeyGrid)
      ((0 : Int), (0 : Int)) ((2 : Int), (0 : Int)) 2 0 :=
    Walk.cons (Walk.cons Walk.nil hadj1 hm1) hadj2 hm2
  obtain ⟨adj, hadj⟩ : ∃ adj, buildAdjacency beyondKeyGrid = Except.ok adj := ⟨_, rfl⟩
  exact ⟨by decide, by decide, hw, hm2, adj, hadj,
    claim_C6 beyondKeyGrid (by decide) adj hadj ⟨'@'⟩ ((0 : Int), (0 : Int)) (by decide)
      ((2 : Int), (0 : Int)) 'b' 2 0 hw (by decide) hm2 (by decide) (by decide)⟩

lemma popMax_none : ∀ {heap : List Vertex}, popMax heap = none → heap = [] := by
  intro heap h
  cases heap with
  | nil => rfl
  | cons v rest =>
    exfalso
    unfold popMax at h
    cases hp : popMax rest with
    | none =>
      simp only [hp] at h
      exact Option.noConfusion h
    | some pr =>
      obtain ⟨m, rem⟩ := pr
      simp only [hp] at h
      split at h <;> exact Option.noConfusion h

lemma popMax_perm : ∀ {heap : List Vertex} {c : Vertex} {h' : List Vertex},
    popMax heap = some (c, h') → heap.Perm (c :: h') := by
  intro heap
  induction heap with
  | nil =>
    intro c h' h
    cases h
  | cons v rest ih =>
    intro c h' h
    unfold popMax at h
    cases hp : popMax rest with
    | none =>
      have hrest : rest = [] := popMax_none hp
      simp only [hp] at h
      injection h with h
      injection h with h1 h2
      subst h1
      subst h2
      subst hrest
      exact List.Perm.refl _
    | some pr =>
      obtain ⟨m, rem⟩ := pr
      have hperm : rest.Perm (m :: rem) := ih hp
      simp only [hp] at h
      split at h
      · injection h with h
        injection h with h1 h2
        subst h1
        subst h2
        exact List.Perm.trans (hperm.cons v) (List.Perm.swap m v rem)
      · injection h with h
        injection h with h1 h2
        subst h1
        subst h2
        exact List.Perm.refl _

lemma cmpVertex_lt_steps {a b : Vertex} (h : cmpVertex a b = Ordering.lt) :
    b.steps ≤ a.steps := by
  unfold cmpVertex at h
  cases hc : compare b.steps a.steps with
  | lt => exact le_of_lt (Nat.compare_eq_lt.mp hc)
  | eq => exact le_of_eq (Nat.compare_eq_eq.mp hc)
  | gt =>
    rw [hc] at h
    simp at h

lemma cmpVertex_not_lt_steps {a b : Vertex} (h : ¬cmpVertex a b = Ordering.lt) :
    a.steps ≤ b.steps := by
  unfold cmpVertex at h
  cases hc : compare b.steps a.steps with
  | lt =>
    exfalso
    apply h
    rw [hc]
  | eq => exact le_of_eq (Nat.compare_eq_eq.mp hc).symm
  | gt => exact le_of_lt (Nat.compare_eq_gt.mp hc)

lemma popMax_steps_le : ∀ {heap : List Vertex} {c : Vertex} {h' : List Vertex},
    popMax heap = some (c, h') → ∀ v ∈ heap, c.steps ≤ v.steps := by
  intro heap
  induction heap with
  | nil =>
    intro c h' h
    cases h
  | cons v rest ih =>
    intro c h' h u hu
    unfold popMax at h
    cases hp : popMax rest with
    | none =>
      have hrest : rest = [] := popMax_none hp
      simp only [hp] at h
      injection h with h
      injection h with h1 h2
      subst h1
      rcases List.mem_cons.mp hu with rfl | hu'
      · exact le_refl _
      · rw [hrest] at hu'
        cases hu'
    | some pr =>
      obtain ⟨m, rem⟩ := pr
      simp only [hp] at h
      split at h
      · rename_i hlt
        injection h with h
        injection h with h1 h2
        subst h1
        rcases List.mem_cons.mp hu with rfl | hu'
        · exact cmpVertex_lt_steps hlt
        · exact ih hp u hu'
      · rename_i hnlt
        injection h with h
        injection h with h1 h2
        subst h1
        rcases List.mem_cons.mp hu with rfl | hu'
        · exact le_refl _
        · exact le_trans (cmpVertex_not_lt_steps hnlt) (ih hp u hu')

lemma relaxEdges_heap_mono (g s : Nat) : ∀ (es : List Edge) (heap : List Vertex)
    (tbl : List ((Key × Nat) × Nat)) (v : Vertex), v ∈ heap →
    v ∈ (relaxEdges g s es heap tbl).1 := by
  intro es
  induction es with
  | nil =>
    intro heap tbl v hv
    exact hv
  | cons e es ih =>
    intro heap tbl v hv
    unfold relaxEdges
    dsimp only
    split
    · split
      · exact ih _ _ v (List.mem_append.mpr (Or.inl hv))
      · exact ih _ _ v hv
    · exact ih _ _ v hv

lemma relaxEdges_heap_mem (g s : Nat) : ∀ (es : List Edge) (heap : List Vertex)
    (tbl : List ((Key × Nat) × Nat)) (v : Vertex),
    v ∈ (relaxEdges g s es heap tbl).1 →
    v ∈ heap ∨ ∃ e ∈ es, e.needed_keys &&& g = e.needed_keys ∧
      v = ⟨e.target_key, s + e.steps, g ||| e.target_key.bit_mask⟩ := by
  intro es
  induction es with
  | nil =>
    intro heap tbl v hv
    exact Or.inl hv
  | cons e es ih =>
    intro heap tbl v hv
    unfold relaxEdges at hv
    dsimp only at hv
    split at hv
    · rename_i hgate
      split at hv
      · rcases ih _ _ v hv with h' | ⟨e', he', hg', hv'⟩
        · rcases List.mem_append.mp h' with h'' | h''
          · exact Or.inl h''
          · rcases List.mem_singleton.mp h'' with rfl
            exact Or.inr ⟨e, List.mem_cons_self _ _, hgate, rfl⟩
        · exact Or.inr ⟨e', List.mem_cons_of_mem _ he', hg', hv'⟩
      · rcases ih _ _ v hv with h' | ⟨e', he', hg', hv'⟩
        · exact Or.inl h'
        · exact Or.inr ⟨e', List.mem_cons_of_mem _ he', hg', hv'⟩
    · rcases ih _ _ v hv with h' | ⟨e', he', hg', hv'⟩
      · exact Or.inl h'
      · exact Or.inr ⟨e', List.mem_cons_of_mem _ he', hg', hv'⟩

lemma relaxEdges_covered (g s : Nat) (Q : (Key × Nat) → Nat → Prop) :
    ∀ (es : List Edge) (heap : List Vertex) (tbl : List ((Key × Nat) × Nat)),
      (∀ P c, costGet P tbl = some c → c < USIZE_MAX →
        (∃ v ∈ heap, v.at_key = P.1 ∧ v.gathered_keys = P.2 ∧ v.steps ≤ c) ∨ Q P c) →
      ∀ P c, costGet P (relaxEdges g s es heap tbl).2 = some c → c < USIZE_MAX →
        (∃ v ∈ (relaxEdges g s es heap tbl).1,
          v.at_key = P.1 ∧ v.gathered_keys = P.2 ∧ v.steps ≤ c) ∨ Q P c := by
  intro es
  induction es with
  | nil =>
    intro heap tbl hbase P c hc hM
    exact hbase P c hc hM
  | cons e es ih =>
    intro heap tbl hbase P c hc hM
    unfold relaxEdges at hc ⊢
    dsimp only at hc ⊢
    split at hc
    · rename_i hgate
      split at hc
      · rename_i hlt
        rw [if_pos hgate, if_pos hlt]
        refine ih _ _ ?_ P c hc hM
        intro P' c' hc' hM'
        rw [costGet_costSet] at hc'
        split at hc'
        · rename_i hP
          injection hc' with hc''
          subst hc''
          left
          exact ⟨⟨e.target_key, s + e.steps, g ||| e.target_key.bit_mask⟩,
            List.mem_append.mpr (Or.inr (List.mem_singleton.mpr rfl)),
            congrArg Prod.fst hP, congrArg Prod.snd hP, le_refl _⟩
        · rcases hbase P' c' hc' hM' with ⟨v, hv, h1, h2, h3⟩ | hQ
          · exact Or.inl ⟨v, List.mem_append.mpr (Or.inl hv), h1, h2, h3⟩
          · exact Or.inr hQ
      · rename_i hnlt
        rw [if_pos hgate, if_neg hnlt]
        refine ih _ _ ?_ P c hc hM
        intro P' c' hc' hM'
        rw [costGet_costSet] at hc'
        split at hc'
        · rename_i hP
          injection hc' with hc''
          subst hc''
          cases hcg : costGet (e.target_key, g ||| e.target_key.bit_mask) tbl with
          | none =>
            exfalso
            rw [hcg] at hM'
            exact lt_irrefl USIZE_MAX hM'
          | some c0 =>
            rw [hcg] at hM'
            rcases hbase P' c0 (by rw [← hP]; exact hcg) hM' with ⟨v, hv, h1, h2, h3⟩ | hQ
            · exact Or.inl ⟨v, hv, h1, h2, h3⟩
            · exact Or.inr hQ
        · rcases hbase P' c' hc' hM' with ⟨v, hv, h1, h2, h3⟩ | hQ
          · exact Or.inl ⟨v, hv, h1, h2, h3⟩
          · exact Or.inr hQ
    · rename_i hngate
      rw [if_neg hngate]
      exact ih _ _ hbase P c hc hM

lemma dijInv_initial (adj : List (Key × List Edge)) (ak : Nat) :
    DijInv adj ak [⟨⟨'@'⟩, 0, 0⟩] [] [] := by
  refine ⟨?_, ?_, ?_, ?_, ?_⟩
  · intro v hv
    rcases List.mem_singleton.mp hv with rfl
    exact Reach.start
  · intro p hp
    cases hp
  · left
    exact ⟨⟨⟨'@'⟩, 0, 0⟩, List.mem_singleton.mpr rfl, rfl, rfl, rfl⟩
  · intro p hp
    cases hp
  · intro P c hc
    cases hc

lemma dijInv_step {adj : List (Key × List Edge)} {ak : Nat} {heap heap1 : List Vertex}
    {tbl : List ((Key × Nat) × Nat)} {pops : List Vertex} {current : Vertex}
    {edges : List Edge}
    (hInv : DijInv adj ak heap tbl pops)
    (hpm : popMax heap = some (current, heap1))
    (hg : current.gathered_keys ≠ ak)
    (hadj : adjGet current.at_key adj = some edges) :
    DijInv adj ak (relaxEdges current.gathered_keys current.steps edges heap1 tbl).1
      (relaxEdges current.gathered_keys current.steps edges heap1 tbl).2
      (pops ++ [current]) := by
  have hperm := popMax_perm hpm
  have hcur : current ∈ heap := hperm.mem_iff.mpr (List.mem_cons_self _ _)
  have hsub : ∀ v ∈ heap1, v ∈ heap := fun v hv =>
    hperm.mem_iff.mpr (List.mem_cons_of_mem _ hv)
  have hcr : Reach adj current.at_key current.gathered_keys current.steps :=
    hInv.sound current hcur
  refine ⟨?_, ?_, ?_, ?_, ?_⟩
  · intro v hv
    rcases relaxEdges_heap_mem current.gathered_keys current.steps edges heap1 tbl v hv
      with h' | ⟨e, he, hgate, rfl⟩
    · exact hInv.sound v (hsub v h')
    · exact Reach.step hcr hadj he hgate
  · intro p hp
    rcases List.mem_append.mp hp with hp' | hp'
    · exact hInv.pops_ne p hp'
    · rcases List.mem_singleton.mp hp' with rfl
      exact hg
  · rcases hInv.start_cov with ⟨v, hv, h1, h2, h3⟩ | ⟨p, hp, h1, h2, h3⟩
    · rcases List.mem_cons.mp (hperm.mem_iff.mp hv) with hveq | hv'
      · right
        refine ⟨v, ?_, h1, h2, h3⟩
        rw [hveq]
        exact List.mem_append.mpr (Or.inr (List.mem_singleton.mpr rfl))
      · left
        exact ⟨v, relaxEdges_heap_mono _ _ edges heap1 tbl v hv', h1, h2, h3⟩
    · right
      exact ⟨p, List.mem_append.mpr (Or.inl hp), h1, h2, h3⟩
  · intro p hp es' hadj' e he hgate
    rcases List.mem_append.mp hp with hp' | hp'
    · exact le_trans
        (relaxEdges_tbl_le current.gathered_keys current.steps edges heap1 tbl _)
        (hInv.relaxed p hp' es' hadj' e he hgate)
    · have hpeq : p = current := List.mem_singleton.mp hp'
      subst hpeq
      have hes : es' = edges := by
        rw [hadj] at hadj'
        injection hadj' with h'
        exact h'.symm
      subst hes
      exact relaxEdges_gated_le p.gathered_keys p.steps es' heap1 tbl e he hgate
  · have hbase : ∀ P c, costGet P tbl = some c → c < USIZE_MAX →
        (∃ v ∈ heap1, v.at_key = P.1 ∧ v.gathered_keys = P.2 ∧ v.steps ≤ c) ∨
        (∃ p ∈ pops ++ [current], p.at_key = P.1 ∧ p.gathered_keys = P.2 ∧
          p.steps ≤ c) := by
      intro P c hc hM
      rcases hInv.covered P c hc hM with ⟨v, hv, h1, h2, h3⟩ | ⟨p, hp, h1, h2, h3⟩
      · rcases List.mem_cons.mp (hperm.mem_iff.mp hv) with hveq | hv'
        · right
          refine ⟨v, ?_, h1, h2, h3⟩
          rw [hveq]
          exact List.mem_append.mpr (Or.inr (List.mem_singleton.mpr rfl))
        · left
          exact ⟨v, hv', h1, h2, h3⟩
      · right
        exact ⟨p, List.mem_append.mpr (Or.inl hp), h1, h2, h3⟩
    exact relaxEdges_covered current.gathered_keys current.steps
      (fun P c => ∃ p ∈ pops ++ [current], p.at_key = P.1 ∧ p.gathered_keys = P.2 ∧
        p.steps ≤ c) edges heap1 tbl hbase

lemma reach_bound {adj : List (Key × List Edge)} {heap : List Vertex}
    {tbl : List ((Key × Nat) × Nat)} {pops : List Vertex} (N : Nat)
    (hmin : ∀ v ∈ heap, N ≤ v.steps)
    (hstart : (∃ v ∈ heap, v.at_key = (⟨'@'⟩ : Key) ∧ v.gathered_keys = 0 ∧
        v.steps = 0) ∨
      (∃ p ∈ pops, p.at_key = (⟨'@'⟩ : Key) ∧ p.gathered_keys = 0 ∧ p.steps = 0))
    (hrelax : ∀ p ∈ pops, ∀ es, adjGet p.at_key adj = some es → ∀ e ∈ es,
      e.needed_keys &&& p.gathered_keys = e.needed_keys →
      tableVal tbl (e.target_key, p.gathered_keys ||| e.target_key.bit_mask) ≤
        p.steps + e.steps)
    (hcov : ∀ P c, costGet P tbl = some c → c < USIZE_MAX →
      (∃ v ∈ heap, v.at_key = P.1 ∧ v.gathered_keys = P.2 ∧ v.steps ≤ c) ∨
      (∃ p ∈ pops, p.at_key = P.1 ∧ p.gathered_keys = P.2 ∧ p.steps ≤ c)) :
    ∀ (k : Key) (g s : Nat), Reach adj k g s → s < USIZE_MAX →
      N ≤ s ∨ ∃ p ∈ pops, p.at_key = k ∧ p.gathered_keys = g ∧ p.steps ≤ s := by
  intro k g s hreach
  induction hreach with
  | start =>
    intro hlt
    rcases hstart with ⟨v, hv, h1, h2, h3⟩ | ⟨p, hp, h1, h2, h3⟩
    · left
      have := hmin v hv
      omega
    · right
      exact ⟨p, hp, h1, h2, Nat.le_of_eq h3⟩
  | step hr hadj he hgate ih =>
    rename_i k' g' s' es e
    intro hlt
    have hs' : s' < USIZE_MAX := by omega
    rcases ih hs' with hN | ⟨p, hp, h1, h2, h3⟩
    · left
      omega
    · have hadj' : adjGet p.at_key adj = some es := by
        rw [h1]
        exact hadj
      have hgate' : e.needed_keys &&& p.gathered_keys = e.needed_keys := by
        rw [h2]
        exact hgate
      have hb := hrelax p hp es hadj' e he hgate'
      rw [h2] at hb
      have hble : tableVal tbl (e.target_key, g' ||| e.target_key.bit_mask) ≤
          s' + e.steps := by omega
      cases hcg : costGet (e.target_key, g' ||| e.target_key.bit_mask) tbl with
      | none =>
        exfalso
        have hMAX : tableVal tbl (e.target_key, g' ||| e.target_key.bit_mask) =
            USIZE_MAX := by
          unfold tableVal
          rw [hcg]
          rfl
        omega
      | some c =>
        have hcval : tableVal tbl (e.target_key, g' ||| e.target_key.bit_mask) = c := by
          unfold tableVal
          rw [hcg]
          rfl
        have hc : c ≤ s' + e.steps := by omega
        have hcM : c < USIZE_MAX := by omega
        rcases hcov _ c hcg hcM with ⟨v, hv, hv1, hv2, hv3⟩ | ⟨p', hp', h1', h2', h3'⟩
        · left
          have := hmin v hv
          omega
        · right
          exact ⟨p', hp', h1', h2', by omega⟩

lemma dij_goal_pop {adj : List (Key × List Edge)} {ak : Nat} {heap : List Vertex}
    {tbl : List ((Key × Nat) × Nat)} {pops : List Vertex} {current : Vertex}
    {heap1 : List Vertex}
    (hInv : DijInv adj ak heap tbl pops)
    (hpm : popMax heap = some (current, heap1))
    (hg : current.gathered_keys = ak) :
    (∃ k, Reach adj k ak current.steps) ∧
    ∀ k s, Reach adj k ak s → s < USIZE_MAX → current.steps ≤ s := by
  have hperm := popMax_perm hpm
  have hcur : current ∈ heap := hperm.mem_iff.mpr (List.mem_cons_self _ _)
  constructor
  · refine ⟨current.at_key, ?_⟩
    have hs := hInv.sound current hcur
    rw [hg] at hs
    exact hs
  · intro k s hreach hlt
    rcases reach_bound current.steps (popMax_steps_le hpm) hInv.start_cov hInv.relaxed
      hInv.covered k ak s hreach hlt with hN | ⟨p, hp, h1, h2, h3⟩
    · exact hN
    · exact absurd h2 (hInv.pops_ne p hp)

lemma dijkstraLoop_min {adj : List (Key × List Edge)} {ak : Nat} :
    ∀ (fuel : Nat) (heap : List Vertex) (tbl : List ((Key × Nat) × Nat))
      (pops : List Vertex) (n : Nat), DijInv adj ak heap tbl pops →
      dijkstraLoop adj ak fuel heap tbl = Except.ok (some n) →
      (∃ k, Reach adj k ak n) ∧
      ∀ k s, Reach adj k ak s → s < USIZE_MAX → n ≤ s := by
  intro fuel
  induction fuel with
  | zero =>
    intro heap tbl pops n hInv h
    unfold dijkstraLoop at h
    split at h
    · simp at h
    · rename_i current heap1 hpm
      split at h
      · rename_i hg
        simp only [Except.ok.injEq, Option.some.injEq] at h
        subst h
        exact dij_goal_pop hInv hpm hg
      · split at h
        · cases h
        · split at h
          · cases h
          · rename_i heqf
            omega
  | succ fuel ih =>
    intro heap tbl pops n hInv h
    unfold dijkstraLoop at h
    split at h
    · simp at h
    · rename_i current heap1 hpm
      split at h
      · rename_i hg
        simp only [Except.ok.injEq, Option.some.injEq] at h
        subst h
        exact dij_goal_pop hInv hpm hg
      · rename_i hg
        split at h
        · cases h
        · rename_i edges hadjeq
          split at h
          · rename_i heqf
            omega
          · rename_i fuel' heqf
            split at h
            · rename_i heap2 tbl2 hrelax
              obtain rfl : fuel' = fuel := by omega
              have hInv' := dijInv_step hInv hpm hg hadjeq
              rw [hrelax] at hInv'
              exact ih heap2 tbl2 (pops ++ [current]) n hInv' h

lemma dijkstraLoop_none_min {adj : List (Key × List Edge)} {ak : Nat} :
    ∀ (fuel : Nat) (heap : List Vertex) (tbl : List ((Key × Nat) × Nat))
      (pops : List Vertex), DijInv adj ak heap tbl pops →
      dijkstraLoop adj ak fuel heap tbl = Except.ok none →
      ∀ k s, Reach adj k ak s → USIZE_MAX ≤ s := by
  intro fuel
  induction fuel with
  | zero =>
    intro heap tbl pops hInv h k s hreach
    unfold dijkstraLoop at h
    split at h
    · rename_i hpm
      have hheap : heap = [] := popMax_none hpm
      subst hheap
      by_contra hge
      push_neg at hge
      rcases reach_bound (s + 1) (fun v hv => absurd hv (List.not_mem_nil v))
          hInv.start_cov hInv.relaxed hInv.covered k ak s hreach hge
        with hN | ⟨p, hp, h1, h2, h3⟩
      · omega
      · exact hInv.pops_ne p hp h2
    · rename_i current heap1 hpm
      split at h
      · simp at h
      · split at h
        · cases h
        · split at h
          · cases h
          · rename_i heqf
            omega
  | succ fuel ih =>
    intro heap tbl pops hInv h k s hreach
    unfold dijkstraLoop at h
    split at h
    · rename_i hpm
      have hheap : heap = [] := popMax_none hpm
      subst hheap
      by_contra hge
      push_neg at hge
      rcases reach_bound (s + 1) (fun v hv => absurd hv (List.not_mem_nil v))
          hInv.start_cov hInv.relaxed hInv.covered k ak s hreach hge
        with hN | ⟨p, hp, h1, h2, h3⟩
      · omega
      · exact hInv.pops_ne p hp h2
    · rename_i current heap1 hpm
      split at h
      · simp at h
      · rename_i hg
        split at h
        · cases h
        · rename_i edges hadjeq
          split at h
          · rename_i heqf
            omega
          · rename_i fuel' heqf
            split at h
            · rename_i heap2 tbl2 hrelax
              obtain rfl : fuel' = fuel := by omega
              have hInv' := dijInv_step hInv hpm hg hadjeq
              rw [hrelax] at hInv'
              exact ih heap2 tbl2 (pops ++ [current]) hInv' h k s hreach

/-- Claim C1: given the reduced adjacency mapping and the all-keys bitmask,
the key-space Dijkstra is exact.  Whenever `shortest_path` returns a number,
that number is the total step count of an actual eligible edge sequence from
the synthetic start key `'@'` (empty collected set, zero steps) to a state
whose collected-keys set equals the all-keys mask, and no such sequence of
cost below the `usize::MAX` infinity sentinel is shorter; and whenever it
returns the empty option, no such sequence of cost below the sentinel exists
at all. -/
theorem claim_C1 (adj : List (Key × List Edge)) (all_keys : Nat) :
    (∀ n, shortest_path adj all_keys = Except.ok (some n) →
      (∃ k, Reach adj k all_keys n) ∧
      ∀ k s, Reach adj k all_keys s → s < USIZE_MAX → n ≤ s) ∧
    (shortest_path adj all_keys = Except.ok none →
      ∀ k s, Reach adj k all_keys s → USIZE_MAX ≤ s) := by
  constructor
  · intro n h
    exact dijkstraLoop_min dijkstraFuel [⟨⟨'@'⟩, 0, 0⟩] [] [] n
      (dijInv_initial adj all_keys) h
  · intro h
    exact dijkstraLoop_none_min dijkstraFuel [⟨⟨'@'⟩, 0, 0⟩] [] []
      (dijInv_initial adj all_keys) h

/-- Witness for C1: on the two-vertex adjacency mapping with a single edge of
five steps from the start to key `a` and all-keys mask 1, the solver answers
five, which is reachable and minimal. -/
theorem claim_C1_witness :
    shortest_path [(⟨'@'⟩, [⟨⟨'a'⟩, 5, 0⟩])] 1 = Except.ok (some 5) ∧
    (∃ k, Reach [(⟨'@'⟩, [⟨⟨'a'⟩, 5, 0⟩])] k 1 5) ∧
    (∀ k s, Reach [(⟨'@'⟩, [⟨⟨'a'⟩, 5, 0⟩])] k 1 s → s < USIZE_MAX → 5 ≤ s) := by
  have h : shortest_path [(⟨'@'⟩, [⟨⟨'a'⟩, 5, 0⟩])] 1 = Except.ok (some 5) := by rfl
  obtain ⟨h1, h2⟩ := (claim_C1 [(⟨'@'⟩, [⟨⟨'a'⟩, 5, 0⟩])] 1).1 5 h
  exact ⟨h, h1, h2⟩

/-- Claim C8: on the two concrete example grids, the single-agent operation
returns 8 and 86 respectively. -/
theorem claim_C8 :
    part1 exampleGrid1 = .ok 8 ∧ part1 exampleGrid2 = .ok 86 :=
  ⟨rfl, rfl⟩

/-- Claim C2, failing input: on the grid whose key `'b'` is fully enclosed by
walls, the solver does not surface `Unreachable` as an absent result — it hits
the `adjacency_list.get(&current.at_key).unwrap()` panic when it pops key
`'a'`, which has no outgoing edges and hence no adjacency entry.  This is the
very situation the spec requires the solver to handle ("the solver must handle
a source key with zero outgoing edges"), so the code diverges from the spec's
stated intent. -/
theorem claim_C2_failing :
    steps_to_gather_all_keys enclosedKeyGrid = .error .unwrapNone :=
  rfl

/-- Claim C3, counterexample: a grid containing the invalid character `'?'`
does not fail at all — the character sits in a cell never examined by any
reducer BFS (here there are no keys and no start, so no BFS runs), and
processing succeeds with answer 0 instead of failing with `InvalidMapEntry`. -/
theorem claim_C3_counterexample :
    steps_to_gather_all_keys invalidCharGrid = .ok 0 :=
  rfl

/-- Claim C6, counterexample: in the corridor `@ab`, the key `'b'` lies
strictly beyond the key `'a'` on the only walkable path from the start, yet
the reducer records an edge from `'@'` to `'b'` (2 steps) — BFS traversal
continues through key cells, so keys beyond other keys do receive edges. -/
theorem claim_C6_counterexample :
    buildAdjacency beyondKeyGrid =
      .ok [(⟨'@'⟩, [⟨⟨'a'⟩, 1, 0⟩, ⟨⟨'b'⟩, 2, 0⟩]),
           (⟨'a'⟩, [⟨⟨'b'⟩, 1, 0⟩]),
           (⟨'b'⟩, [⟨⟨'a'⟩, 1, 0⟩])] :=
  rfl

/-- Claim C10: `Key::bit_mask` is only ever invoked on lowercase keys, never
on the synthetic start key `'@'`.  Its three call sites are: the parse loop
(guarded by the `'a'..='z'` match arm), the door arm of the reducer BFS (which
lowercases a character guarded by `'A'..='Z'`), and the successor construction
of `shortest_path`, which invokes it on `edge.target_key` — and, as this
theorem states, every edge target of the reduced adjacency mapping is a
lowercase key, so `value - 'a'` never underflows (`'a'.toNat ≤ value.toNat`)
and the shift amount stays within `0..=25`, keeping every mask below bit 26. -/
theorem claim_C10 (lines : List (List Char)) (adj : List (Key × List Edge))
    (h : buildAdjacency lines = .ok adj) :
    (∀ k es, (k, es) ∈ adj → ∀ e ∈ es,
      'a' ≤ e.target_key.value ∧ e.target_key.value ≤ 'z' ∧
      e.target_key.value ≠ '@' ∧
      'a'.toNat ≤ e.target_key.value.toNat ∧
      e.target_key.value.toNat - 'a'.toNat ≤ 25 ∧
      e.target_key.bit_mask = 2 ^ (e.target_key.value.toNat - 'a'.toNat) ∧
      e.target_key.bit_mask < 2 ^ 26) ∧
    allKeysBitset lines < 2 ^ 26 := by
  constructor
  · intro k es hmem e he
    have hedge : EdgeOK (allKeysBitset lines) e := by
      unfold buildAdjacency at h
      exact buildAdjacencyAux_edges (FkOK_foundKeys lines) _ adj h k es hmem e he
    obtain ⟨hb1, hb2, _⟩ := hedge
    have ha : 'a'.toNat = 97 := by decide
    have hz : 'z'.toNat = 122 := by decide
    have h1 := char_le_toNat hb1
    have h2 := char_le_toNat hb2
    refine ⟨hb1, hb2, ?_, h1, by omega, bit_mask_eq_pow _, bit_mask_lt hb1 hb2⟩
    intro hat
    rw [hat] at h1
    exact absurd h1 (by decide)
  · exact allKeysBitset_lt lines

/-- Witness for C10, instantiated on the `@ab` corridor grid. -/
theorem claim_C10_witness :
    (∀ k es,
      (k, es) ∈ [((⟨'@'⟩ : Key), [(⟨⟨'a'⟩, 1, 0⟩ : Edge), ⟨⟨'b'⟩, 2, 0⟩]),
                 (⟨'a'⟩, [⟨⟨'b'⟩, 1, 0⟩]), (⟨'b'⟩, [⟨⟨'a'⟩, 1, 0⟩])] →
      ∀ e ∈ es,
      'a' ≤ e.target_key.value ∧ e.target_key.value ≤ 'z' ∧
      e.target_key.value ≠ '@' ∧
      'a'.toNat ≤ e.target_key.value.toNat ∧
      e.target_key.value.toNat - 'a'.toNat ≤ 25 ∧
      e.target_key.bit_mask = 2 ^ (e.target_key.value.toNat - 'a'.toNat) ∧
      e.target_key.bit_mask < 2 ^ 26) ∧
    allKeysBitset beyondKeyGrid < 2 ^ 26 :=
  claim_C10 beyondKeyGrid _ rfl

/-- Claim C4, amended: for every nonempty grid, `part2` rewrites the 3×3
region centred on the grid's geometric centre cell
`(first line length / 2, line count / 2)` — its centre and edge-midpoints to
walls, its corners to start markers — splits the grid into four quadrants
along the centre row and column (left and top quadrants inclusive), solves
each quadrant independently, and sums the four answers. -/
theorem claim_C4 (l0 : List Char) (rest : List (List Char)) :
    part2 (l0 :: rest) =
      quadSum
        (((rewriteGrid (l0.length / 2) ((l0 :: rest).length / 2) 0 (l0 :: rest)).take
            ((l0 :: rest).length / 2 + 1)).map (List.take (l0.length / 2 + 1)))
        (((rewriteGrid (l0.length / 2) ((l0 :: rest).length / 2) 0 (l0 :: rest)).take
            ((l0 :: rest).length / 2 + 1)).map (List.drop (l0.length / 2 + 1)))
        (((rewriteGrid (l0.length / 2) ((l0 :: rest).length / 2) 0 (l0 :: rest)).drop
            ((l0 :: rest).length / 2 + 1)).map (List.take (l0.length / 2 + 1)))
        (((rewriteGrid (l0.length / 2) ((l0 :: rest).length / 2) 0 (l0 :: rest)).drop
            ((l0 :: rest).length / 2 + 1)).map (List.drop (l0.length / 2 + 1))) := by
  unfold part2
  dsimp only
  rw [buildQuads_eq]
  simp only [Nat.sub_zero]
  rfl

/-- Witness for C4, instantiated on the off-centre grid. -/
theorem claim_C4_witness :
    part2 offCenterGrid =
      quadSum
        (((rewriteGrid 3 3 0 offCenterGrid).take 4).map (List.take 4))
        (((rewriteGrid 3 3 0 offCenterGrid).take 4).map (List.drop 4))
        (((rewriteGrid 3 3 0 offCenterGrid).drop 4).map (List.take 4))
        (((rewriteGrid 3 3 0 offCenterGrid).drop 4).map (List.drop 4)) :=
  claim_C4 ("#######".toList) [ "#@....#".toList, "#.....#".toList, "#.....#".toList,
    "#.....#".toList, "#....a#".toList, "#######".toList ]

/-- Claim C7, counterexample: in `sealedKeyDoorGrid` the key `'q'` exists
only inside a sealed wall pocket — it appears nowhere in the traversable
region — yet its door `'Q'` is not transparent: it contributes bit 16
(value 65536) to the required-keys mask of the only edge, because the code's
transparency check is membership in `found_keys` (presence anywhere in the
grid), not presence in the traversable region.  Consequently the answer is
also not invariant under adding such a door on the path: with the door the
solver reports `notPossible`, without it the run ends in the `unwrap` panic. -/
theorem claim_C7_counterexample :
    buildAdjacency sealedKeyDoorGrid = .ok [(⟨'@'⟩, [⟨⟨'a'⟩, 2, 65536⟩])] ∧
    steps_to_gather_all_keys sealedKeyDoorGrid = .error .notPossible ∧
    steps_to_gather_all_keys sealedKeyNoDoorGrid = .error .unwrapNone :=
  ⟨rfl, rfl, rfl⟩

/-- Claim C7, amended: a door is transparent exactly when its matching
lowercase key is absent from the whole grid (the code's `found_keys` check),
not merely from the traversable region.  (A) every edge's required-keys mask
only holds bits of keys present in the grid; (B) a door character whose
matching key is absent from every row contributes no bit to any edge's mask;
(C) the solver's answer is invariant under replacing a floor cell with a door
whose matching key is absent from the grid. -/
theorem claim_C7 :
    (∀ (lines : List (List Char)) (adj : List (Key × List Edge)),
       buildAdjacency lines = .ok adj → ∀ k es, (k, es) ∈ adj → ∀ e ∈ es,
         e.needed_keys &&& allKeysBitset lines = e.needed_keys) ∧
    (∀ (lines : List (List Char)) (adj : List (Key × List Edge)) (D : Char),
       buildAdjacency lines = .ok adj → 'A' ≤ D → D ≤ 'Z' →
       (∀ row ∈ lines, Char.ofNat (D.toNat + 32) ∉ row) →
       ∀ k es, (k, es) ∈ adj → ∀ e ∈ es,
         e.needed_keys.testBit (D.toNat + 32 - 'a'.toNat) = false) ∧
    (∀ (lines : List (List Char)) (x y : Nat) (D : Char),
       'A' ≤ D → D ≤ 'Z' →
       cellAt lines ((x : Int), (y : Int)) = some '.' →
       (∀ row ∈ lines, Char.ofNat (D.toNat + 32) ∉ row) →
       steps_to_gather_all_keys (setCell D x y lines) =
         steps_to_gather_all_keys lines) := by
  refine ⟨?_, ?_, ?_⟩
  · intro lines adj h k es hmem e he
    exact adjacency_needed_submask h k es hmem e he
  · intro lines adj D h hD1 hD2 habs k es hmem e he
    have hsub := adjacency_needed_submask h k es hmem e he
    have hA : 'A'.toNat = 65 := by decide
    have hZ : 'Z'.toNat = 90 := by decide
    have ha : 'a'.toNat = 97 := by decide
    have hD1' := char_le_toNat hD1
    have hD2' := char_le_toNat hD2
    have hAK : (allKeysBitset lines).testBit (D.toNat + 32 - 'a'.toNat) = false := by
      cases hb : (allKeysBitset lines).testBit (D.toNat + 32 - 'a'.toNat) with
      | false => rfl
      | true =>
        exfalso
        obtain ⟨row, hrow, c, hc, ⟨hc1, hc2⟩, hci⟩ := allKeysBitset_testBit hb
        have hc1' := char_le_toNat hc1
        have hcD : c.toNat = D.toNat + 32 := by omega
        have hvalid : D.toNat + 32 < 55296 := by omega
        have : c = Char.ofNat (D.toNat + 32) := by
          apply char_toNat_inj
          rw [hcD, lower_char_toNat hvalid]
        rw [this] at hc
        exact habs row hrow hc
    rw [← hsub, Nat.testBit_and, hAK, Bool.and_false]
  · intro lines x y D hD1 hD2 hcell habs
    have hA : 'A'.toNat = 65 := by decide
    have hZ : 'Z'.toNat = 90 := by decide
    have hD1' := char_le_toNat hD1
    have hD2' := char_le_toNat hD2
    have hDat : ¬D = '@' := by
      intro heq
      rw [heq] at hD1'
      exact absurd hD1' (by decide)
    have hDsharp : ¬D = '#' := by
      intro heq
      rw [heq] at hD1'
      exact absurd hD1' (by decide)
    have hDaz : ¬('a' ≤ D ∧ D ≤ 'z') := by
      rintro ⟨hda, _⟩
      have := char_le_toNat hda
      have ha : 'a'.toNat = 97 := by decide
      omega
    have hcell' := hcell
    unfold cellAt at hcell'
    rw [if_pos ⟨Int.natCast_nonneg x, Int.natCast_nonneg y⟩] at hcell'
    simp only [Int.toNat_ofNat] at hcell'
    cases hrowq : lines.get? y with
    | none =>
      rw [hrowq] at hcell'
      cases hcell'
    | some row =>
      rw [hrowq] at hcell'
      simp only [Option.some_bind] at hcell'
      refine (steps_congr ?_ ?_ ?_ ?_).symm
      · exact (scanKeys_setCell hDat hDaz lines y 0 [] row hrowq hcell').symm
      · exact (allKeysBitset_setCell hDaz lines y row hrowq hcell').symm
      · exact (totalCellsFuel_setCell D x y lines).symm
      · intro p
        by_cases hp : p = ((x : Int), (y : Int))
        · right
          subst hp
          refine ⟨?_, D, ?_, hD1, hD2, ?_⟩
          · unfold mapAt
            rw [hcell]
            rfl
          · unfold mapAt
            rw [cellAt_setCell_self hcell]
            simp only [Option.some_bind]
            unfold charForMap
            rw [if_neg hDat, if_neg hDsharp]
          · exact containsKey_absent habs
        · left
          unfold mapAt
          rw [cellAt_setCell_other D x y lines p hp]

/-- Witness for C7, instantiating part (A) on the `@ab` corridor and part (C)
on the first example grid: replacing its floor cell `(2, 1)` with the door
`'Z'` (key `'z'` absent) leaves the answer unchanged. -/
theorem claim_C7_witness :
    (∀ k es,
      (k, es) ∈ [((⟨'@'⟩ : Key), [(⟨⟨'a'⟩, 1, 0⟩ : Edge), ⟨⟨'b'⟩, 2, 0⟩]),
                 (⟨'a'⟩, [⟨⟨'b'⟩, 1, 0⟩]), (⟨'b'⟩, [⟨⟨'a'⟩, 1, 0⟩])] →
      ∀ e ∈ es, e.needed_keys &&& allKeysBitset beyondKeyGrid = e.needed_keys) ∧
    steps_to_gather_all_keys (setCell 'Z' 2 1 exampleGrid1) =
      steps_to_gather_all_keys exampleGrid1 :=
  ⟨claim_C7.1 beyondKeyGrid _ rfl,
   claim_C7.2.2 exampleGrid1 2 1 'Z' (by decide) (by decide) rfl (by decide)⟩

/-- Claim C9: the best-cost table of `shortest_path` is monotone throughout a
run.  (1) `dijkstraLoopT` is the loop of `shortest_path` instrumented to also
return its final best-cost table; (2) across a whole run, every pair's
recorded best (infinity when absent, i.e. `usize::max_value()`, which is what
`or_insert` initializes an absent entry to) only ever decreases; (3) entries
are never removed; (4) every state pushed by the relaxation body strictly
beats the best recorded for its `(key, collected_keys)` pair at the moment of
its generation; (5) conversely, after the body runs, the recorded best for
every generated successor is at most that successor's steps — a successor
that did not strictly beat the recorded best was discarded, not pushed. -/
theorem claim_C9 :
    (∀ (adj : List (Key × List Edge)) (ak fuel : Nat) (heap : List Vertex)
       (tbl : List ((Key × Nat) × Nat)),
       (dijkstraLoopT adj ak fuel heap tbl).1 = dijkstraLoop adj ak fuel heap tbl) ∧
    (∀ (adj : List (Key × List Edge)) (ak fuel : Nat) (heap : List Vertex)
       (tbl : List ((Key × Nat) × Nat)) (p : Key × Nat),
       tableVal (dijkstraLoopT adj ak fuel heap tbl).2 p ≤ tableVal tbl p) ∧
    (∀ (adj : List (Key × List Edge)) (ak fuel : Nat) (heap : List Vertex)
       (tbl : List ((Key × Nat) × Nat)) (p : Key × Nat),
       (costGet p tbl).isSome = true →
       (costGet p (dijkstraLoopT adj ak fuel heap tbl).2).isSome = true) ∧
    (∀ (g s : Nat) (es : List Edge) (heap : List Vertex)
       (tbl : List ((Key × Nat) × Nat)) (v : Vertex),
       v ∈ (relaxEdges g s es heap tbl).1 →
       v ∈ heap ∨ v.steps < tableVal tbl (v.at_key, v.gathered_keys)) ∧
    (∀ (g s : Nat) (es : List Edge) (heap : List Vertex)
       (tbl : List ((Key × Nat) × Nat)) (e : Edge), e ∈ es →
       e.needed_keys &&& g = e.needed_keys →
       tableVal (relaxEdges g s es heap tbl).2
         (e.target_key, g ||| e.target_key.bit_mask) ≤ s + e.steps) :=
  ⟨fun adj ak fuel heap tbl => dijkstraLoopT_fst adj ak fuel heap tbl,
   fun adj ak fuel heap tbl p => dijkstraLoopT_tbl_le adj ak fuel heap tbl p,
   fun adj ak fuel heap tbl p h => dijkstraLoopT_dom adj ak fuel heap tbl p h,
   fun g s es heap tbl v hv => relaxEdges_push_lt g s es heap tbl v hv,
   fun g s es heap tbl e he hg => relaxEdges_gated_le g s es heap tbl e he hg⟩

/-- Witness for C9 at concrete inputs: a one-entry table survives a run of the
loop; the successor generated from the edge to `'a'` (5 steps, no needed keys)
is pushed because 5 strictly beats the absent entry, and after the body its
recorded best is at most 5. -/
theorem claim_C9_witness :
    (costGet ((⟨'a'⟩ : Key), 1)
      (dijkstraLoopT [] 0 1 [] [(((⟨'a'⟩ : Key), 1), 3)]).2).isSome = true ∧
    ((⟨⟨'a'⟩, 5, 1⟩ : Vertex) ∈ ([] : List Vertex) ∨
      (⟨⟨'a'⟩, 5, 1⟩ : Vertex).steps <
        tableVal [] ((⟨⟨'a'⟩, 5, 1⟩ : Vertex).at_key,
          (⟨⟨'a'⟩, 5, 1⟩ : Vertex).gathered_keys)) ∧
    tableVal (relaxEdges 0 0 [⟨⟨'a'⟩, 5, 0⟩] [] []).2
      ((⟨'a'⟩ : Key), 0 ||| (⟨'a'⟩ : Key).bit_mask) ≤ 0 + (⟨⟨'a'⟩, 5, 0⟩ : Edge).steps :=
  ⟨claim_C9.2.2.1 [] 0 1 [] [(((⟨'a'⟩ : Key), 1), 3)] ((⟨'a'⟩ : Key), 1) rfl,
   claim_C9.2.2.2.1 0 0 [⟨⟨'a'⟩, 5, 0⟩] [] [] ⟨⟨'a'⟩, 5, 1⟩ (by decide),
   claim_C9.2.2.2.2 0 0 [⟨⟨'a'⟩, 5, 0⟩] [] [] ⟨⟨'a'⟩, 5, 0⟩ (by decide) rfl⟩

/-- Claim C3, amended: an `InvalidMapEntry` failure arises only from a
character outside the grammar that is actually present in the grid
(soundness), and a grid with an invalid character fails exactly when some
reducer BFS examines its cell — in particular, for every invalid character
`c`, the grid `['@', c]` fails with `InvalidMapEntry c`, since the start's
BFS examines the invalid cell; the counterexample above shows an invalid
character that no BFS examines does not abort processing. -/
theorem claim_C3 :
    (∀ (lines : List (List Char)) (c : Char),
       steps_to_gather_all_keys lines = .error (.invalidMapEntry c) →
       ¬validChar c ∧ ∃ row ∈ lines, c ∈ row) ∧
    (∀ c : Char, ¬validChar c →
       steps_to_gather_all_keys [['@', c]] = .error (.invalidMapEntry c)) := by
  constructor
  · intro lines c h
    unfold steps_to_gather_all_keys at h
    split at h
    · rename_i e' heq
      cases h
      unfold buildAdjacency at heq
      rcases buildAdjacencyAux_ime _ heq with h' | h'
      · cases h'
      · obtain ⟨p, c', hec, hm, hAZ, haz, hdot⟩ := h'
        obtain rfl : c' = c := by cases hec; rfl
        unfold mapAt at hm
        cases hcell : cellAt lines p with
        | none => rw [hcell] at hm; cases hm
        | some c0 =>
          rw [hcell] at hm
          simp only [Option.some_bind] at hm
          unfold charForMap at hm
          split at hm
          · cases hm
            exact absurd rfl hdot
          · split at hm
            · cases hm
            · rename_i hat hsharp
              cases hm
              refine ⟨?_, ?_⟩
              · intro hv
                rcases hv with h' | h' | h' | h' | h'
                · exact hsharp h'
                · exact hdot h'
                · exact hat h'
                · exact haz h'
                · exact hAZ h'
              · unfold cellAt at hcell
                split at hcell
                · cases hrow : lines.get? p.2.toNat with
                  | none => rw [hrow] at hcell; cases hcell
                  | some row =>
                    rw [hrow] at hcell
                    simp only [Option.some_bind] at hcell
                    exact ⟨row, List.get?_mem hrow, List.get?_mem hcell⟩
                · cases hcell
    · rename_i adj heq
      split at h
      · rename_i e' heq2
        cases h
        rcases dijkstraLoop_err _ _ _ heq2 with h' | h' <;> cases h'
      · cases h
      · cases h
  · intro c hc
    have hc1 : ¬c = '#' := fun h => hc (Or.inl h)
    have hc2 : ¬c = '.' := fun h => hc (Or.inr (Or.inl h))
    have hc3 : ¬c = '@' := fun h => hc (Or.inr (Or.inr (Or.inl h)))
    have hc4 : ¬('a' ≤ c ∧ c ≤ 'z') := fun h => hc (Or.inr (Or.inr (Or.inr (Or.inl h))))
    have hc5 : ¬('A' ≤ c ∧ c ≤ 'Z') := fun h => hc (Or.inr (Or.inr (Or.inr (Or.inr h))))
    have hfk : foundKeys [['@', c]] = [(⟨'@'⟩, ((0 : Int), (0 : Int)))] := by
      unfold foundKeys
      simp only [scanKeys, scanRowKeys, insertKey, if_pos rfl, hc3, hc4, if_false, reduceIte]
      rfl
    have hmA : mapAt [['@', c]] ((0 : Int) + 0, (0 : Int) + 1) = none := rfl
    have hmB : mapAt [['@', c]] ((0 : Int) + 0, (0 : Int) + -1) = none := rfl
    have hmC : mapAt [['@', c]] ((0 : Int) + -1, (0 : Int) + 0) = none := rfl
    have hmD : mapAt [['@', c]] ((0 : Int) + 1, (0 : Int) + 0) = some c := by
      show (cellAt [['@', c]] ((0 : Int) + 1, (0 : Int) + 0)).bind charForMap = some c
      have h1 : cellAt [['@', c]] ((0 : Int) + 1, (0 : Int) + 0) = some c := rfl
      rw [h1]
      show charForMap c = some c
      unfold charForMap
      rw [if_neg hc3, if_neg hc1]
    unfold steps_to_gather_all_keys buildAdjacency
    rw [hfk]
    have htot : totalCellsFuel [['@', c]] = 4 := rfl
    rw [htot]
    unfold buildAdjacencyAux findEdgesFrom
    unfold bfsLoop
    simp only [DIRECTIONS]
    unfold stepDirList
    unfold stepDir
    simp only [hmA, hmB, hmC, hmD, hc2, hc4, hc5, if_false, reduceIte]
    unfold stepDirList
    unfold stepDir
    simp only [hmA, hmB, hmC, hmD, hc2, hc4, hc5, if_false, reduceIte]
    unfold stepDirList
    unfold stepDir
    simp only [hmA, hmB, hmC, hmD, hc2, hc4, hc5, if_false, reduceIte]
    unfold stepDirList
    unfold stepDir
    simp only [hmA, hmB, hmC, hmD, hc2, hc4, hc5, if_false, reduceIte]

/-- Witness for C3 at the concrete invalid character `'?'`. -/
theorem claim_C3_witness :
    steps_to_gather_all_keys [['@', '?']] = .error (.invalidMapEntry '?') ∧
    (¬validChar '?' ∧ ∃ row ∈ [['@', '?']], '?' ∈ row) :=
  ⟨claim_C3.2 '?' (by decide),
   claim_C3.1 [['@', '?']] '?' (claim_C3.2 '?' (by decide))⟩

/-- Claim C4, counterexample: on a grid whose start marker is away from the
geometric centre, `part2` (which rewrites and splits around the centre cell of
the grid) answers 2, while the transformation described by the claim (rewrite
and split centred on the original `'@'`) answers 6 — so `part2` does not
perform the claimed `'@'`-centred transformation. -/
theorem claim_C4_counterexample :
    part2 offCenterGrid = .ok 2 ∧ part2_claimed offCenterGrid = .ok 6 :=
  ⟨rfl, rfl⟩
